import Mathlib

/-!
Shallow embedding of the context-aware editing engine of the
openrouter-code repository: `src/tools/ts-context-engine.ts`
(class `TSContextEngine`) and `src/tools/enhanced-editing.ts`
(class `EnhancedEditor` and the module-level `enhancedMultiEdit`).

JavaScript strings are modelled as `List Char`.  The file on disk is an
explicit `Str` value threaded through the operations, and
`fs.writeFileSync` becomes returning the new disk content.  The
TypeScript parser (`ts.createSourceFile` plus the visitor of
`findTargetNodes`/`createNodeContext`) is external to the repository; its
output is modelled by the engine's `nodes` field, the preorder list of
`NodeContext` records the visitor would produce for the parsed source.
-/

namespace OpenRouterCode

/-- JavaScript strings are modelled as lists of characters. -/
abbrev Str := List Char

/-- Builds a model string from a Lean string literal. -/
def str (s : String) : Str := s.toList

/-- The newline character, on which `split('\n')` and `join('\n')` operate. -/
def nl : Char := Char.ofNat 10

/-- Model of `s.split('\n')`: always returns at least one (possibly empty) part. -/
def splitLines : Str → List Str
  | [] => [[]]
  | c :: rest =>
    match splitLines rest with
    | [] => [[c]]
    | l :: ls => if c = nl then [] :: l :: ls else (c :: l) :: ls

/-- Model of `parts.join('\n')`. -/
def joinLines : List Str → Str
  | [] => []
  | [l] => l
  | l :: l' :: ls => l ++ nl :: joinLines (l' :: ls)

theorem splitLines_ne_nil (s : Str) : splitLines s ≠ [] := by
  induction s with
  | nil => simp [splitLines]
  | cons c rest ih =>
    simp only [splitLines]
    rcases h : splitLines rest with _ | ⟨l, ls⟩
    · simp
    · by_cases hc : c = nl <;> simp [hc]

theorem joinLines_cons (l : Str) (ls : List Str) (h : ls ≠ []) :
    joinLines (l :: ls) = l ++ nl :: joinLines ls := by
  cases ls with
  | nil => exact absurd rfl h
  | cons l' ls' => rfl

theorem joinLines_splitLines (s : Str) : joinLines (splitLines s) = s := by
  induction s with
  | nil => rfl
  | cons c rest ih =>
    rcases h : splitLines rest with _ | ⟨l, ls⟩
    · exact absurd h (splitLines_ne_nil rest)
    · rw [h] at ih
      by_cases hc : c = nl
      · subst hc
        simp only [splitLines, h, if_true]
        rw [joinLines_cons _ _ (by simp), ih]
        rfl
      · simp only [splitLines, h, if_neg hc]
        cases ls with
        | nil => simpa [joinLines] using ih
        | cons l2 ls2 =>
          rw [joinLines_cons _ _ (by simp)] at ih ⊢
          simp [← ih]

theorem nl_not_mem_splitLines (s : Str) :
    ∀ l ∈ splitLines s, nl ∉ l := by
  induction s with
  | nil => intro l hl; simp [splitLines] at hl; simp [hl]
  | cons c rest ih =>
    intro l hl
    rcases h : splitLines rest with _ | ⟨l0, ls⟩
    · exact absurd h (splitLines_ne_nil rest)
    · simp only [splitLines, h] at hl
      by_cases hc : c = nl
      · simp only [hc, if_pos rfl] at hl
        rcases List.mem_cons.mp hl with hl | hl
        · simp [hl]
        · exact ih l (h ▸ hl)
      · simp only [if_neg hc] at hl
        rcases List.mem_cons.mp hl with hl | hl
        · subst hl
          intro hmem
          rcases List.mem_cons.mp hmem with h1 | h1
          · exact hc h1.symm
          · exact ih l0 (h ▸ List.mem_cons_self l0 ls) h1
        · exact ih l (h ▸ List.mem_cons_of_mem l0 hl)

/-- Boolean prefix test, the primitive behind `indexOf`-style scanning. -/
def isPrefixB : Str → Str → Bool
  | [], _ => true
  | _ :: _, [] => false
  | a :: as, b :: bs => decide (a = b) && isPrefixB as bs

theorem isPrefixB_iff (p s : Str) : isPrefixB p s = true ↔ p <+: s := by
  induction p generalizing s with
  | nil => simp [isPrefixB]
  | cons a as ih =>
    cases s with
    | nil => simp [isPrefixB]
    | cons b bs =>
      simp [isPrefixB, List.cons_prefix_cons, ih, and_comm]

/-- Boolean substring test: model of JavaScript `s.includes(pat)` and of
`s.indexOf(pat) !== -1`. -/
def containsSub (pat : Str) : Str → Bool
  | [] => isPrefixB pat []
  | c :: rest => isPrefixB pat (c :: rest) || containsSub pat rest

theorem infix_cons_iff' {pat : Str} {c : Char} {rest : Str} :
    pat <:+: c :: rest ↔ pat <+: c :: rest ∨ pat <:+: rest := by
  constructor
  · rintro ⟨s, t, hst⟩
    cases s with
    | nil => exact Or.inl ⟨t, by simpa using hst⟩
    | cons x xs =>
      right
      refine ⟨xs, t, ?_⟩
      have := hst
      simp only [List.cons_append] at this
      exact (List.cons.injEq _ _ _ _ ▸ this).2
  · rintro (⟨t, ht⟩ | ⟨s, t, hst⟩)
    · exact ⟨[], t, by simpa using ht⟩
    · exact ⟨c :: s, t, by simp [← hst]⟩

theorem containsSub_iff (pat s : Str) : containsSub pat s = true ↔ pat <:+: s := by
  induction s with
  | nil =>
    simp [containsSub, isPrefixB_iff, List.prefix_nil, List.infix_nil]
  | cons c rest ih =>
    simp [containsSub, isPrefixB_iff, ih, infix_cons_iff']

/-- Model of JavaScript whitespace, used by `trim()` and by the leading
`match(/^\s*)` indentation probe. -/
def isWs (c : Char) : Bool := c.isWhitespace

/-- Model of the test `s.trim() === ''` (equivalently, of `!s.trim()`). -/
def trimEmpty (s : Str) : Bool := s.all isWs

/-- Decimal rendering of a number, for template-string interpolation. -/
def natStr (n : Nat) : Str := (Nat.repr n).toList

/-- Decimal rendering of an integer, for template-string interpolation. -/
def intStr (n : Int) : Str := (toString n).toList

def dollar : Char := Char.ofNat 36

def ampChar : Char := Char.ofNat 38

def backquote : Char := Char.ofNat 96

def apostrophe : Char := Char.ofNat 39


/-- ECMAScript `GetSubstitution(matched, str, position, captures,
namedCaptures, replacement)` specialised to the two forms the program
uses: a plain-string search (`line.replace(oldText, newText)`), and the
regex `new RegExp(escapeRegExp(oldText), 'g')`, which contains no
capture groups (every metacharacter of `oldText` is escaped), with
`namedCaptures` undefined.  In both forms `matched` is the literal
search text and the special replacement patterns are exactly:
`$$` inserts a dollar, `$&` the matched text, a dollar followed by a
backquote the part of `str` before the match, and a dollar followed by
an apostrophe the part of `str` after the match.  With zero captures a
`$n` pattern is not substituted, and with `namedCaptures` undefined
neither is a dollar-less-than, so any other dollar stays literal — the
default branch below reproduces both. -/
def getSubstitution (matched s : Str) (position : Nat) : Str → Str
  | [] => []
  | [c] => [c]
  | c1 :: c2 :: rest =>
    if c1 = dollar then
      if c2 = dollar then dollar :: getSubstitution matched s position rest
      else if c2 = ampChar then matched ++ getSubstitution matched s position rest
      else if c2 = backquote then s.take position ++ getSubstitution matched s position rest
      else if c2 = apostrophe then
        s.drop (position + matched.length) ++ getSubstitution matched s position rest
      else c1 :: getSubstitution matched s position (c2 :: rest)
    else c1 :: getSubstitution matched s position (c2 :: rest)

/-- Worker for `replaceFirst`: `s` is the whole subject string (the
`str` argument of `GetSubstitution`), `pos` the position of the suffix
being scanned within it. -/
def replaceFirstAux (pat rep s : Str) : Nat → Str → Str
  | pos, [] => if pat = [] then getSubstitution pat s pos rep else []
  | pos, c :: rest =>
    if isPrefixB pat (c :: rest) then
      getSubstitution pat s pos rep ++ (c :: rest).drop pat.length
    else c :: replaceFirstAux pat rep s (pos + 1) rest

/-- Model of JavaScript `s.replace(pat, rep)` with a plain string
pattern: the first occurrence (at position `p`, like JS an empty
pattern matches at position 0) is replaced by
`GetSubstitution(pat, s, p, rep)`. -/
def replaceFirst (pat rep s : Str) : Str := replaceFirstAux pat rep s 0 s

/-- Literal-insertion variant of `replaceFirst`, a proof device: it
coincides with `replaceFirst` exactly when the replacement contains no
dollar character (`replaceFirst_no_dollar`), and is used to state and
prove the dollar-free round-trip lemmas. -/
def replaceFirstLit (pat rep : Str) : Str → Str
  | [] => if pat = [] then rep else []
  | c :: rest =>
    if isPrefixB pat (c :: rest) then rep ++ (c :: rest).drop pat.length
    else c :: replaceFirstLit pat rep rest

/-- Worker for `replaceAll`:  `s` is the original whole string (the
`str` argument of `GetSubstitution`), `pos` the absolute position of the
suffix being scanned.  The `fuel` argument only bounds the recursion;
any value of at least the suffix length gives the same result
(`replaceAllGo_fuel`), since a non-empty pattern consumes at least one
character per step. -/
def replaceAllGo (pat rep s : Str) : Nat → Str → Nat → Str
  | _, [], _ => []
  | 0, t, _ => t
  | fuel + 1, c :: rest, pos =>
    if pat ≠ [] ∧ isPrefixB pat (c :: rest) = true then
      getSubstitution pat s pos rep ++
        replaceAllGo pat rep s fuel ((c :: rest).drop pat.length) (pos + pat.length)
    else c :: replaceAllGo pat rep s fuel rest (pos + 1)

/-- `replaceAll` restarted at suffix `t` of the subject `s`, scanning
from absolute position `pos`. -/
def replaceAllFrom (pat rep s t : Str) (pos : Nat) : Str :=
  replaceAllGo pat rep s t.length t pos

/-- Model of `s.replace(new RegExp(escapeRegExp(pat), 'g'), rep)`: the
escaped regular expression matches exactly the literal `pat` and has no
capture groups, so every non-overlapping left-to-right occurrence at
position `p` is replaced by `GetSubstitution(pat, s, p, rep)`.  Every
call site has `pat ≠ []`, guaranteed by `validateInputs`. -/
def replaceAll (pat rep s : Str) : Str := replaceAllFrom pat rep s s 0

/-- Literal-insertion variant of the global replacement, a proof device:
it coincides with `replaceAll` exactly when the replacement contains no
dollar character (`replaceAll_no_dollar`). -/
def replaceAllGoLit (pat rep : Str) : Nat → Str → Str
  | _, [] => []
  | 0, s => s
  | fuel + 1, c :: rest =>
    if pat ≠ [] ∧ isPrefixB pat (c :: rest) = true then
      rep ++ replaceAllGoLit pat rep fuel ((c :: rest).drop pat.length)
    else c :: replaceAllGoLit pat rep fuel rest

def replaceAllLit (pat rep s : Str) : Str := replaceAllGoLit pat rep s.length s

theorem replaceAllGoLit_fuel (pat rep : Str) :
    ∀ fuel s, s.length ≤ fuel →
      replaceAllGoLit pat rep fuel s = replaceAllGoLit pat rep s.length s := by
  intro fuel
  induction fuel using Nat.strong_induction_on with
  | _ fuel ih =>
    intro s hs
    match fuel, s with
    | 0, s =>
      have : s = [] := List.length_eq_zero.mp (Nat.le_zero.mp hs)
      subst this; rfl
    | fuel + 1, [] => rfl
    | fuel + 1, c :: rest =>
      have h1 : rest.length ≤ fuel := Nat.le_of_succ_le_succ hs
      have hfuel : fuel < fuel + 1 := Nat.lt_succ_self _
      have hrl : rest.length < fuel + 1 := Nat.lt_succ_of_le h1
      simp only [replaceAllGoLit, List.length_cons]
      by_cases hcond : pat ≠ [] ∧ isPrefixB pat (c :: rest) = true
      · have hplen : 1 ≤ pat.length := by
          cases hpat : pat with
          | nil => exact absurd hpat hcond.1
          | cons x xs => simp
        have hdrop : ((c :: rest).drop pat.length).length ≤ rest.length := by
          simp only [List.length_drop, List.length_cons]
          omega
        rw [if_pos hcond, if_pos hcond,
          ih fuel hfuel _ (le_trans hdrop h1),
          ih rest.length hrl _ hdrop]
      · rw [if_neg hcond, if_neg hcond, ih fuel hfuel rest h1]

theorem replaceAllLit_nil (pat rep : Str) : replaceAllLit pat rep [] = [] := rfl

theorem replaceAllLit_cons (pat rep : Str) (hp : pat ≠ []) (c : Char) (rest : Str) :
    replaceAllLit pat rep (c :: rest) =
      if isPrefixB pat (c :: rest) = true then
        rep ++ replaceAllLit pat rep ((c :: rest).drop pat.length)
      else c :: replaceAllLit pat rep rest := by
  have hplen : 1 ≤ pat.length := by
    cases hpat : pat with
    | nil => exact absurd hpat hp
    | cons x xs => simp
  have hdrop : ((c :: rest).drop pat.length).length ≤ rest.length := by
    simp only [List.length_drop, List.length_cons]; omega
  show replaceAllGoLit pat rep (rest.length + 1) (c :: rest) = _
  simp only [replaceAllGoLit]
  by_cases hpre : isPrefixB pat (c :: rest) = true
  · rw [if_pos ⟨hp, hpre⟩, if_pos hpre, replaceAllLit,
      replaceAllGoLit_fuel pat rep rest.length _ hdrop]
  · rw [if_neg (by simp [hpre]), if_neg hpre]
    rfl

/-- Worker modelling the scanning loop of `findAllOccurrences`:
`while ((columnIndex = line.indexOf(searchText, columnIndex)) !== -1)`,
where each iteration records the match column and advances by
`searchText.length`.  `indexOf(pat, i)` returns the first position
`j ≥ i` where `pat` matches, so the loop is equivalent to advancing one
character at a time and jumping over each match.  Any `fuel ≥ s.length`
gives the loop's behaviour when `pat ≠ []`; for `pat = []` the JS loop
never terminates (callers guard that case through `findAllOccurrences`). -/
def scanGo (pat : Str) : Nat → Str → Nat → List Nat
  | 0, _, _ => []
  | _ + 1, [], _ => []
  | fuel + 1, c :: rest, pos =>
    if isPrefixB pat (c :: rest) then
      pos :: scanGo pat fuel ((c :: rest).drop pat.length) (pos + pat.length)
    else scanGo pat fuel rest (pos + 1)

/-- Occurrence columns of `pat` in `line`, scanning from column `pos`. -/
def scanFrom (pat line : Str) (pos : Nat) : List Nat :=
  scanGo pat line.length line pos

/-- Occurrence columns of `pat` in `line` (the per-line scan of
`findAllOccurrences`). -/
def scanOccurrences (pat line : Str) : List Nat := scanFrom pat line 0

theorem scanGo_fuel (pat : Str) (hp : pat ≠ []) :
    ∀ fuel s pos, s.length ≤ fuel →
      scanGo pat fuel s pos = scanGo pat s.length s pos := by
  intro fuel
  induction fuel using Nat.strong_induction_on with
  | _ fuel ih =>
    intro s pos hs
    match fuel, s with
    | 0, s =>
      have : s = [] := List.length_eq_zero.mp (Nat.le_zero.mp hs)
      subst this; rfl
    | fuel + 1, [] => rfl
    | fuel + 1, c :: rest =>
      have h1 : rest.length ≤ fuel := Nat.le_of_succ_le_succ hs
      have hfuel : fuel < fuel + 1 := Nat.lt_succ_self _
      have hrl : rest.length < fuel + 1 := Nat.lt_succ_of_le h1
      have hplen : 1 ≤ pat.length := by
        cases hpat : pat with
        | nil => exact absurd hpat hp
        | cons x xs => simp
      have hdrop : ((c :: rest).drop pat.length).length ≤ rest.length := by
        simp only [List.length_drop, List.length_cons]; omega
      simp only [scanGo, List.length_cons]
      by_cases hpre : isPrefixB pat (c :: rest) = true
      · rw [if_pos hpre, if_pos hpre,
          ih fuel hfuel _ _ (le_trans hdrop h1), ih rest.length hrl _ _ hdrop]
      · rw [if_neg hpre, if_neg hpre, ih fuel hfuel rest _ h1]

theorem scanFrom_nil (pat : Str) (pos : Nat) : scanFrom pat [] pos = [] := rfl

theorem scanFrom_cons (pat : Str) (hp : pat ≠ []) (c : Char) (rest : Str) (pos : Nat) :
    scanFrom pat (c :: rest) pos =
      if isPrefixB pat (c :: rest) = true then
        pos :: scanFrom pat ((c :: rest).drop pat.length) (pos + pat.length)
      else scanFrom pat rest (pos + 1) := by
  have hplen : 1 ≤ pat.length := by
    cases hpat : pat with
    | nil => exact absurd hpat hp
    | cons x xs => simp
  have hdrop : ((c :: rest).drop pat.length).length ≤ rest.length := by
    simp only [List.length_drop, List.length_cons]; omega
  show scanGo pat (rest.length + 1) (c :: rest) pos = _
  simp only [scanGo]
  by_cases hpre : isPrefixB pat (c :: rest) = true
  · rw [if_pos hpre, if_pos hpre, scanFrom,
      scanGo_fuel pat hp rest.length _ _ hdrop]
  · rw [if_neg hpre, if_neg hpre]
    rfl

theorem scanFrom_eq_nil_iff (pat : Str) (hp : pat ≠ []) :
    ∀ (s : Str) (pos : Nat), scanFrom pat s pos = [] ↔ ¬ pat <:+: s := by
  intro s
  induction s with
  | nil => intro pos; simp [scanFrom_nil, List.infix_nil, hp]
  | cons c rest ih =>
    intro pos
    rw [scanFrom_cons pat hp c rest pos]
    by_cases hpre : isPrefixB pat (c :: rest) = true
    · simp only [if_pos hpre]
      have : pat <:+: c :: rest := ((isPrefixB_iff _ _).mp hpre).isInfix
      simp [this]
    · simp only [if_neg hpre, ih]
      rw [infix_cons_iff']
      have : ¬ pat <+: c :: rest := fun h => hpre ((isPrefixB_iff _ _).mpr h)
      tauto

theorem scanOccurrences_eq_nil_iff (pat s : Str) (hp : pat ≠ []) :
    scanOccurrences pat s = [] ↔ ¬ pat <:+: s :=
  scanFrom_eq_nil_iff pat hp s 0

theorem prefix_append_cons_cases {pat l : Str} {c : Char} {t : Str}
    (h : pat <+: l ++ c :: t) : pat <+: l ∨ c ∈ pat := by
  by_cases hle : pat.length ≤ l.length
  · exact Or.inl (List.prefix_of_prefix_length_le h (List.prefix_append l (c :: t)) hle)
  · right
    rcases h with ⟨u, hu⟩
    push_neg at hle
    have h1 : (l ++ c :: t)[l.length]? = some c := by
      rw [List.getElem?_append_right (le_refl _)]
      simp
    have h2 : (pat ++ u)[l.length]? = pat[l.length]? :=
      List.getElem?_append_left hle
    rw [hu, h1] at h2
    exact List.getElem?_mem h2.symm

theorem replaceAllLit_append_nl (pat rep : Str) (hp : pat ≠ []) (hnl : nl ∉ pat) :
    ∀ (l t : Str), ¬ pat <:+: l →
      replaceAllLit pat rep (l ++ nl :: t) = l ++ nl :: replaceAllLit pat rep t := by
  intro l
  induction l with
  | nil =>
    intro t _
    rw [List.nil_append, replaceAllLit_cons pat rep hp nl t]
    have hpre : ¬ isPrefixB pat (nl :: t) = true := by
      intro h
      cases pat with
      | nil => exact hp rfl
      | cons p ps =>
        have h2 := List.cons_prefix_cons.mp ((isPrefixB_iff _ _).mp h)
        exact hnl (h2.1 ▸ List.mem_cons_self _ _)
    rw [if_neg hpre, List.nil_append]
  | cons c l' ih =>
    intro t hinf
    have hnotpre : ¬ isPrefixB pat (c :: (l' ++ nl :: t)) = true := by
      intro h
      rcases prefix_append_cons_cases (l := c :: l') ((isPrefixB_iff _ _).mp h) with h1 | h1
      · exact hinf h1.isInfix
      · exact hnl h1
    show replaceAllLit pat rep (c :: (l' ++ nl :: t)) = _
    rw [replaceAllLit_cons pat rep hp c (l' ++ nl :: t),
      if_neg hnotpre, ih t (fun h => hinf (List.infix_cons h))]
    rfl

theorem replaceAllLit_of_not_infix (pat rep : Str) (hp : pat ≠ []) :
    ∀ l, ¬ pat <:+: l → replaceAllLit pat rep l = l := by
  intro l
  induction l with
  | nil => intro _; rfl
  | cons c l' ih =>
    intro hinf
    have hnotpre : ¬ isPrefixB pat (c :: l') = true :=
      fun h => hinf ((isPrefixB_iff _ _).mp h).isInfix
    rw [replaceAllLit_cons pat rep hp c l', if_neg hnotpre,
      ih (fun h => hinf (List.infix_cons h))]

theorem replaceAllLit_joinLines_clean (pat rep : Str) (hp : pat ≠ []) (hnl : nl ∉ pat) :
    ∀ L : List Str, (∀ l ∈ L, ¬ pat <:+: l) →
      replaceAllLit pat rep (joinLines L) = joinLines L := by
  intro L
  induction L with
  | nil => intro _; rfl
  | cons l L' ih =>
    intro hcl
    cases L' with
    | nil =>
      exact replaceAllLit_of_not_infix pat rep hp l (hcl l (List.mem_cons_self _ _))
    | cons l2 L2 =>
      rw [joinLines_cons _ _ (by simp),
        replaceAllLit_append_nl pat rep hp hnl l _ (hcl l (List.mem_cons_self _ _)),
        ih (fun x hx => hcl x (List.mem_cons_of_mem _ hx))]

theorem replaceAllLit_append_nl_single (pat rep : Str) (hp : pat ≠ []) (hnl : nl ∉ pat) :
    ∀ (l : Str) (pos p : Nat) (t : Str), scanFrom pat l pos = [p] →
      replaceAllLit pat rep (l ++ nl :: t) =
        replaceFirstLit pat rep l ++ nl :: replaceAllLit pat rep t := by
  intro l
  induction l with
  | nil =>
    intro pos p t h
    rw [scanFrom_nil] at h
    exact absurd h (by simp)
  | cons c l' ih =>
    intro pos p t h
    rw [scanFrom_cons pat hp c l' pos] at h
    by_cases hpre : isPrefixB pat (c :: l') = true
    · rw [if_pos hpre] at h
      have hrest : scanFrom pat ((c :: l').drop pat.length) (pos + pat.length) = [] := by
        injection h with _ h2
      have hninf : ¬ pat <:+: (c :: l').drop pat.length :=
        (scanFrom_eq_nil_iff pat hp _ _).mp hrest
      have hpre2 : isPrefixB pat (c :: (l' ++ nl :: t)) = true := by
        rw [isPrefixB_iff] at hpre ⊢
        exact hpre.trans (List.prefix_append _ _)
      have hlen : pat.length ≤ (c :: l').length :=
        ((isPrefixB_iff _ _).mp hpre).length_le
      show replaceAllLit pat rep (c :: (l' ++ nl :: t)) = _
      rw [replaceAllLit_cons pat rep hp c (l' ++ nl :: t), if_pos hpre2]
      have hdropeq : (c :: (l' ++ nl :: t)).drop pat.length
          = (c :: l').drop pat.length ++ nl :: t := by
        rw [show c :: (l' ++ nl :: t) = (c :: l') ++ nl :: t from rfl]
        exact List.drop_append_of_le_length hlen
      rw [hdropeq, replaceAllLit_append_nl pat rep hp hnl _ t hninf]
      simp [replaceFirstLit, hpre, List.append_assoc]
    · rw [if_neg hpre] at h
      have hnotpre2 : ¬ isPrefixB pat (c :: (l' ++ nl :: t)) = true := by
        intro hcontra
        rcases prefix_append_cons_cases (l := c :: l')
            ((isPrefixB_iff _ _).mp hcontra) with h1 | h1
        · exact hpre ((isPrefixB_iff _ _).mpr h1)
        · exact hnl h1
      show replaceAllLit pat rep (c :: (l' ++ nl :: t)) = _
      rw [replaceAllLit_cons pat rep hp c (l' ++ nl :: t),
        if_neg hnotpre2, ih (pos + 1) p t h]
      simp [replaceFirstLit, hpre]

theorem replaceAllLit_single (pat rep : Str) (hp : pat ≠ []) :
    ∀ (l : Str) (pos p : Nat), scanFrom pat l pos = [p] →
      replaceAllLit pat rep l = replaceFirstLit pat rep l := by
  intro l
  induction l with
  | nil =>
    intro pos p h
    rw [scanFrom_nil] at h
    exact absurd h (by simp)
  | cons c l' ih =>
    intro pos p h
    rw [scanFrom_cons pat hp c l' pos] at h
    by_cases hpre : isPrefixB pat (c :: l') = true
    · rw [if_pos hpre] at h
      have hrest : scanFrom pat ((c :: l').drop pat.length) (pos + pat.length) = [] := by
        injection h with _ h2
      have hninf : ¬ pat <:+: (c :: l').drop pat.length :=
        (scanFrom_eq_nil_iff pat hp _ _).mp hrest
      rw [replaceAllLit_cons pat rep hp c l', if_pos hpre,
        replaceAllLit_of_not_infix pat rep hp _ hninf]
      simp [replaceFirstLit, hpre]
    · rw [if_neg hpre] at h
      rw [replaceAllLit_cons pat rep hp c l', if_neg hpre, ih (pos + 1) p h]
      simp [replaceFirstLit, hpre]

theorem getD_of_mem {M : List Str} {x : Str} (h : x ∈ M) :
    ∃ j, j < M.length ∧ M.getD j [] = x := by
  rcases List.mem_iff_getElem.mp h with ⟨i, hi, rfl⟩
  exact ⟨i, hi, by simp [List.getD_eq_getElem?_getD, List.getElem?_eq_getElem hi]⟩

/-- Central correspondence: when the per-line scans report exactly one
occurrence overall (on line `k`), global regex replacement of the joined
text agrees with replacing the first occurrence inside line `k` only. -/
theorem replaceAllLit_joinLines_set (pat rep : Str) (hp : pat ≠ []) (hnl : nl ∉ pat) :
    ∀ (L : List Str) (k p : Nat),
      k < L.length →
      scanOccurrences pat (L.getD k []) = [p] →
      (∀ j, j ≠ k → scanOccurrences pat (L.getD j []) = []) →
      replaceAllLit pat rep (joinLines L) =
        joinLines (L.set k (replaceFirstLit pat rep (L.getD k []))) := by
  intro L
  induction L with
  | nil =>
    intro k p hk
    exact absurd hk (by simp)
  | cons l L' ih =>
    intro k p hk hone hzero
    cases k with
    | zero =>
      cases L' with
      | nil =>
        simpa [joinLines] using
          replaceAllLit_single pat rep hp l 0 p (by simpa using hone)
      | cons l2 L2 =>
        have hclean : ∀ x ∈ l2 :: L2, ¬ pat <:+: x := by
          intro x hx
          rcases getD_of_mem hx with ⟨j, hj, hget⟩
          have hz := hzero (j + 1) (by simp)
          rw [List.getD_cons_succ, hget] at hz
          exact (scanOccurrences_eq_nil_iff pat x hp).mp hz
        rw [joinLines_cons l (l2 :: L2) (by simp),
          replaceAllLit_append_nl_single pat rep hp hnl l 0 p _ (by simpa using hone),
          replaceAllLit_joinLines_clean pat rep hp hnl (l2 :: L2) hclean]
        rw [show (l :: l2 :: L2).set 0 (replaceFirstLit pat rep ((l :: l2 :: L2).getD 0 []))
            = replaceFirstLit pat rep l :: l2 :: L2 by simp]
        rw [joinLines_cons (replaceFirstLit pat rep l) (l2 :: L2) (by simp)]
    | succ k' =>
      cases L' with
      | nil => exact absurd hk (by simp)
      | cons l2 L2 =>
        have h0 : scanOccurrences pat l = [] := by
          have := hzero 0 (by simp)
          simpa using this
        have hninf : ¬ pat <:+: l := (scanOccurrences_eq_nil_iff pat l hp).mp h0
        have hone' : scanOccurrences pat ((l2 :: L2).getD k' []) = [p] := by
          simpa using hone
        have hzero' : ∀ j, j ≠ k' → scanOccurrences pat ((l2 :: L2).getD j []) = [] := by
          intro j hj
          have := hzero (j + 1) (by omega)
          simpa using this
        rw [joinLines_cons l (l2 :: L2) (by simp),
          replaceAllLit_append_nl pat rep hp hnl l _ hninf,
          ih k' p (by simpa using hk) hone' hzero']
        rw [show (l :: l2 :: L2).set (k' + 1)
              (replaceFirstLit pat rep ((l :: l2 :: L2).getD (k' + 1) []))
            = l :: (l2 :: L2).set k' (replaceFirstLit pat rep ((l2 :: L2).getD k' [])) by simp]
        rw [joinLines_cons l ((l2 :: L2).set k' (replaceFirstLit pat rep ((l2 :: L2).getD k' [])))
          (by intro hcontra; apply_fun List.length at hcontra; simp at hcontra)]

theorem getSubstitution_no_dollar (matched s : Str) (pos : Nat) :
    ∀ rep : Str, dollar ∉ rep → getSubstitution matched s pos rep = rep := by
  intro rep
  induction rep with
  | nil => intro _; rfl
  | cons c1 rest ih =>
    intro hnd
    cases rest with
    | nil => rfl
    | cons c2 rest2 =>
      have hc1 : ¬ c1 = dollar := fun h => hnd (h ▸ List.mem_cons_self _ _)
      simp only [getSubstitution]
      rw [if_neg hc1, ih (fun h => hnd (List.mem_cons_of_mem _ h))]

theorem replaceFirstAux_no_dollar (pat rep s : Str) (hnd : dollar ∉ rep) :
    ∀ (t : Str) (pos : Nat),
      replaceFirstAux pat rep s pos t = replaceFirstLit pat rep t := by
  intro t
  induction t with
  | nil =>
    intro pos
    simp only [replaceFirstAux, replaceFirstLit,
      getSubstitution_no_dollar pat s pos rep hnd]
  | cons c rest ih =>
    intro pos
    simp only [replaceFirstAux, replaceFirstLit,
      getSubstitution_no_dollar pat s pos rep hnd, ih (pos + 1)]

/-- `replaceFirst` coincides with its literal-insertion variant exactly
when the replacement contains no dollar character, because
`GetSubstitution` then leaves the replacement untouched. -/
theorem replaceFirst_no_dollar (pat rep l : Str) (hnd : dollar ∉ rep) :
    replaceFirst pat rep l = replaceFirstLit pat rep l :=
  replaceFirstAux_no_dollar pat rep l hnd l 0

theorem replaceAllGo_no_dollar (pat rep s : Str) (hnd : dollar ∉ rep) :
    ∀ (fuel : Nat) (t : Str) (pos : Nat),
      replaceAllGo pat rep s fuel t pos = replaceAllGoLit pat rep fuel t := by
  intro fuel
  induction fuel with
  | zero => intro t pos; cases t <;> rfl
  | succ fuel ih =>
    intro t pos
    cases t with
    | nil => rfl
    | cons c rest =>
      simp only [replaceAllGo, replaceAllGoLit,
        getSubstitution_no_dollar pat s pos rep hnd, ih]

/-- `replaceAll` coincides with its literal-insertion variant exactly
when the replacement contains no dollar character. -/
theorem replaceAll_no_dollar (pat rep s : Str) (hnd : dollar ∉ rep) :
    replaceAll pat rep s = replaceAllLit pat rep s :=
  replaceAllGo_no_dollar pat rep s hnd s.length s 0

theorem replaceAllGo_fuel (pat rep s : Str) :
    ∀ (fuel : Nat) (t : Str) (pos : Nat), t.length ≤ fuel →
      replaceAllGo pat rep s fuel t pos = replaceAllGo pat rep s t.length t pos := by
  intro fuel
  induction fuel using Nat.strong_induction_on with
  | _ fuel ih =>
    intro t pos hs
    match fuel, t with
    | 0, t =>
      have : t = [] := List.length_eq_zero.mp (Nat.le_zero.mp hs)
      subst this; rfl
    | fuel + 1, [] => rfl
    | fuel + 1, c :: rest =>
      have h1 : rest.length ≤ fuel := Nat.le_of_succ_le_succ hs
      have hfuel : fuel < fuel + 1 := Nat.lt_succ_self _
      have hrl : rest.length < fuel + 1 := Nat.lt_succ_of_le h1
      simp only [replaceAllGo, List.length_cons]
      by_cases hcond : pat ≠ [] ∧ isPrefixB pat (c :: rest) = true
      · have hplen : 1 ≤ pat.length := by
          cases hpat : pat with
          | nil => exact absurd hpat hcond.1
          | cons x xs => simp
        have hdrop : ((c :: rest).drop pat.length).length ≤ rest.length := by
          simp only [List.length_drop, List.length_cons]
          omega
        rw [if_pos hcond, if_pos hcond,
          ih fuel hfuel _ _ (le_trans hdrop h1),
          ih rest.length hrl _ _ hdrop]
      · rw [if_neg hcond, if_neg hcond, ih fuel hfuel rest _ h1]

theorem replaceAllFrom_cons (pat rep s : Str) (hp : pat ≠ []) (c : Char)
    (rest : Str) (pos : Nat) :
    replaceAllFrom pat rep s (c :: rest) pos =
      if isPrefixB pat (c :: rest) = true then
        getSubstitution pat s pos rep ++
          replaceAllFrom pat rep s ((c :: rest).drop pat.length) (pos + pat.length)
      else c :: replaceAllFrom pat rep s rest (pos + 1) := by
  have hplen : 1 ≤ pat.length := by
    cases hpat : pat with
    | nil => exact absurd hpat hp
    | cons x xs => simp
  have hdrop : ((c :: rest).drop pat.length).length ≤ rest.length := by
    simp only [List.length_drop, List.length_cons]; omega
  show replaceAllGo pat rep s (rest.length + 1) (c :: rest) pos = _
  simp only [replaceAllGo]
  by_cases hpre : isPrefixB pat (c :: rest) = true
  · rw [if_pos ⟨hp, hpre⟩, if_pos hpre, replaceAllFrom,
      replaceAllGo_fuel pat rep s rest.length _ _ hdrop]
  · rw [if_neg (by simp [hpre]), if_neg hpre]
    rfl

/-- Lines without an occurrence pass through the faithful global
replacement unchanged, up to shifting the scanning position. -/
theorem replaceAllFrom_append_nl (pat rep s : Str) (hp : pat ≠ []) (hnl : nl ∉ pat) :
    ∀ (l t : Str) (pos : Nat), ¬ pat <:+: l →
      ∃ pos2, replaceAllFrom pat rep s (l ++ nl :: t) pos
        = l ++ nl :: replaceAllFrom pat rep s t pos2 := by
  intro l
  induction l with
  | nil =>
    intro t pos _
    refine ⟨pos + 1, ?_⟩
    rw [List.nil_append, List.nil_append, replaceAllFrom_cons pat rep s hp nl t pos]
    have hpre : ¬ isPrefixB pat (nl :: t) = true := by
      intro h
      cases pat with
      | nil => exact hp rfl
      | cons p ps =>
        have h2 := List.cons_prefix_cons.mp ((isPrefixB_iff _ _).mp h)
        exact hnl (h2.1 ▸ List.mem_cons_self _ _)
    rw [if_neg hpre]
  | cons c l' ih =>
    intro t pos hinf
    have hnotpre : ¬ isPrefixB pat (c :: (l' ++ nl :: t)) = true := by
      intro h
      rcases prefix_append_cons_cases (l := c :: l')
          ((isPrefixB_iff _ _).mp h) with h1 | h1
      · exact hinf h1.isInfix
      · exact hnl h1
    rcases ih t (pos + 1) (fun h => hinf (List.infix_cons h)) with ⟨pos2, hrec⟩
    refine ⟨pos2, ?_⟩
    show replaceAllFrom pat rep s (c :: (l' ++ nl :: t)) pos = _
    rw [replaceAllFrom_cons pat rep s hp c (l' ++ nl :: t) pos,
      if_neg hnotpre, hrec]
    rfl

theorem replaceAllFrom_of_not_infix (pat rep s : Str) (hp : pat ≠ []) :
    ∀ (l : Str) (pos : Nat), ¬ pat <:+: l → replaceAllFrom pat rep s l pos = l := by
  intro l
  induction l with
  | nil => intro pos _; rfl
  | cons c l' ih =>
    intro pos hinf
    have hnotpre : ¬ isPrefixB pat (c :: l') = true :=
      fun h => hinf ((isPrefixB_iff _ _).mp h).isInfix
    rw [replaceAllFrom_cons pat rep s hp c l' pos, if_neg hnotpre,
      ih (pos + 1) (fun h => hinf (List.infix_cons h))]

theorem replaceAllFrom_joinLines_clean (pat rep s : Str) (hp : pat ≠ [])
    (hnl : nl ∉ pat) :
    ∀ (L : List Str) (pos : Nat), (∀ l ∈ L, ¬ pat <:+: l) →
      replaceAllFrom pat rep s (joinLines L) pos = joinLines L := by
  intro L
  induction L with
  | nil => intro pos _; rfl
  | cons l L' ih =>
    intro pos hcl
    cases L' with
    | nil =>
      exact replaceAllFrom_of_not_infix pat rep s hp l pos
        (hcl l (List.mem_cons_self _ _))
    | cons l2 L2 =>
      rw [joinLines_cons _ _ (by simp)]
      rcases replaceAllFrom_append_nl pat rep s hp hnl l (joinLines (l2 :: L2)) pos
        (hcl l (List.mem_cons_self _ _)) with ⟨pos2, hrec⟩
      rw [hrec, ih pos2 (fun x hx => hcl x (List.mem_cons_of_mem _ hx))]

/-- A line carrying the unique occurrence is rewritten to some string
`x` by the faithful global replacement; the separator and the tail pass
through. -/
theorem replaceAllFrom_append_nl_single (pat rep s : Str) (hp : pat ≠ [])
    (hnl : nl ∉ pat) :
    ∀ (l : Str) (pos0 p : Nat) (t : Str) (pos : Nat), scanFrom pat l pos0 = [p] →
      ∃ x pos2, replaceAllFrom pat rep s (l ++ nl :: t) pos
        = x ++ nl :: replaceAllFrom pat rep s t pos2 := by
  intro l
  induction l with
  | nil =>
    intro pos0 p t pos h
    rw [scanFrom_nil] at h
    exact absurd h (by simp)
  | cons c l' ih =>
    intro pos0 p t pos h
    rw [scanFrom_cons pat hp c l' pos0] at h
    by_cases hpre : isPrefixB pat (c :: l') = true
    · rw [if_pos hpre] at h
      have hrest : scanFrom pat ((c :: l').drop pat.length) (pos0 + pat.length) = [] := by
        injection h with _ h2
      have hninf : ¬ pat <:+: (c :: l').drop pat.length :=
        (scanFrom_eq_nil_iff pat hp _ _).mp hrest
      have hpre2 : isPrefixB pat (c :: (l' ++ nl :: t)) = true := by
        rw [isPrefixB_iff] at hpre ⊢
        exact hpre.trans (List.prefix_append _ _)
      have hlen : pat.length ≤ (c :: l').length :=
        ((isPrefixB_iff _ _).mp hpre).length_le
      have hdropeq : (c :: (l' ++ nl :: t)).drop pat.length
          = (c :: l').drop pat.length ++ nl :: t := by
        rw [show c :: (l' ++ nl :: t) = (c :: l') ++ nl :: t from rfl]
        exact List.drop_append_of_le_length hlen
      rcases replaceAllFrom_append_nl pat rep s hp hnl ((c :: l').drop pat.length) t
        (pos + pat.length) hninf with ⟨pos2, hrec⟩
      refine ⟨getSubstitution pat s pos rep ++ (c :: l').drop pat.length, pos2, ?_⟩
      show replaceAllFrom pat rep s (c :: (l' ++ nl :: t)) pos = _
      rw [replaceAllFrom_cons pat rep s hp c (l' ++ nl :: t) pos, if_pos hpre2,
        hdropeq, hrec, List.append_assoc]
    · rw [if_neg hpre] at h
      have hnotpre2 : ¬ isPrefixB pat (c :: (l' ++ nl :: t)) = true := by
        intro hcontra
        rcases prefix_append_cons_cases (l := c :: l')
            ((isPrefixB_iff _ _).mp hcontra) with h1 | h1
        · exact hpre ((isPrefixB_iff _ _).mpr h1)
        · exact hnl h1
      rcases ih (pos0 + 1) p t (pos + 1) h with ⟨x, pos2, hrec⟩
      refine ⟨c :: x, pos2, ?_⟩
      show replaceAllFrom pat rep s (c :: (l' ++ nl :: t)) pos = _
      rw [replaceAllFrom_cons pat rep s hp c (l' ++ nl :: t) pos,
        if_neg hnotpre2, hrec]
      rfl

/-- When the per-line scans report exactly one occurrence overall (on
line `k`), the faithful global replacement of the joined text rewrites
line `k` to some string and leaves every other line byte-identical. -/
theorem replaceAllFrom_joinLines_touches (pat rep s : Str) (hp : pat ≠ [])
    (hnl : nl ∉ pat) :
    ∀ (L : List Str) (k p pos : Nat),
      k < L.length →
      scanOccurrences pat (L.getD k []) = [p] →
      (∀ j, j ≠ k → scanOccurrences pat (L.getD j []) = []) →
      ∃ x, replaceAllFrom pat rep s (joinLines L) pos = joinLines (L.set k x) := by
  intro L
  induction L with
  | nil =>
    intro k p pos hk
    exact absurd hk (by simp)
  | cons l L' ih =>
    intro k p pos hk hone hzero
    cases k with
    | zero =>
      cases L' with
      | nil =>
        refine ⟨replaceAllFrom pat rep s l pos, ?_⟩
        simp [joinLines]
      | cons l2 L2 =>
        have hclean : ∀ x ∈ l2 :: L2, ¬ pat <:+: x := by
          intro x hx
          rcases getD_of_mem hx with ⟨j, hj, hget⟩
          have hz := hzero (j + 1) (by simp)
          rw [List.getD_cons_succ, hget] at hz
          exact (scanOccurrences_eq_nil_iff pat x hp).mp hz
        rcases replaceAllFrom_append_nl_single pat rep s hp hnl l 0 p
          (joinLines (l2 :: L2)) pos (by simpa using hone) with ⟨x, pos2, hrec⟩
        refine ⟨x, ?_⟩
        rw [joinLines_cons l (l2 :: L2) (by simp), hrec,
          replaceAllFrom_joinLines_clean pat rep s hp hnl (l2 :: L2) pos2 hclean]
        rw [show (l :: l2 :: L2).set 0 x = x :: l2 :: L2 by simp]
        rw [joinLines_cons x (l2 :: L2) (by simp)]
    | succ k2 =>
      cases L' with
      | nil => exact absurd hk (by simp)
      | cons l2 L2 =>
        have h0 : scanOccurrences pat l = [] := by
          have := hzero 0 (by simp)
          simpa using this
        have hninf : ¬ pat <:+: l := (scanOccurrences_eq_nil_iff pat l hp).mp h0
        have hone2 : scanOccurrences pat ((l2 :: L2).getD k2 []) = [p] := by
          simpa using hone
        have hzero2 : ∀ j, j ≠ k2 →
            scanOccurrences pat ((l2 :: L2).getD j []) = [] := by
          intro j hj
          have := hzero (j + 1) (by omega)
          simpa using this
        rcases replaceAllFrom_append_nl pat rep s hp hnl l (joinLines (l2 :: L2))
          pos hninf with ⟨pos2, hrec⟩
        rcases ih k2 p pos2 (by simpa using hk) hone2 hzero2 with ⟨x, hrec2⟩
        refine ⟨x, ?_⟩
        rw [joinLines_cons l (l2 :: L2) (by simp), hrec, hrec2]
        rw [show (l :: l2 :: L2).set (k2 + 1) x = l :: (l2 :: L2).set k2 x by simp]
        rw [joinLines_cons l ((l2 :: L2).set k2 x)
          (by intro hcontra; apply_fun List.length at hcontra; simp at hcontra)]

/-- Stable insertion of `a` before the first element `b` with `le a b`. -/
def insertSorted {α : Type} (le : α → α → Bool) (a : α) : List α → List α
  | [] => [a]
  | b :: l => if le a b then a :: b :: l else b :: insertSorted le a l

/-- Model of JavaScript `array.sort(comparator)` with a consistent
comparator: a stable sort by `le a b := comparator(a, b) <= 0`
(`Array.prototype.sort` is specified to be stable).  The observable
result of any stable sort is determined by `le` and the input order, so
insertion sort is a faithful model. -/
def stableSortBy {α : Type} (le : α → α → Bool) : List α → List α
  | [] => []
  | a :: l => insertSorted le a (stableSortBy le l)

theorem mem_insertSorted {α : Type} (le : α → α → Bool) (a x : α) :
    ∀ l : List α, x ∈ insertSorted le a l ↔ x = a ∨ x ∈ l := by
  intro l
  induction l with
  | nil => simp [insertSorted]
  | cons b l ih =>
    simp only [insertSorted]
    by_cases hle : le a b = true
    · simp [hle]
    · simp only [if_neg hle, List.mem_cons, ih]
      tauto

theorem mem_stableSortBy {α : Type} (le : α → α → Bool) (x : α) :
    ∀ l : List α, x ∈ stableSortBy le l ↔ x ∈ l := by
  intro l
  induction l with
  | nil => simp [stableSortBy]
  | cons a l ih =>
    simp [stableSortBy, mem_insertSorted, ih]

theorem insertSorted_pairwise {α : Type} (le : α → α → Bool) (T : α → α → Prop)
    (htotal : ∀ x y, le x y = true ∨ le y x = true)
    (htrans : ∀ x y z, le x y = true → le y z = true → le x z = true)
    (hstrict : ∀ x y, le x y = true → ¬ le y x = true → T x y)
    (a : α) :
    ∀ l : List α,
      l.Pairwise (fun x y => le x y = true) →
      l.Pairwise T →
      (∀ b ∈ l, le a b = true → le b a = true → T a b) →
      (insertSorted le a l).Pairwise (fun x y => le x y = true) ∧
        (insertSorted le a l).Pairwise T := by
  intro l
  induction l with
  | nil => intro _ _ _; constructor <;> simp [insertSorted]
  | cons b l ih =>
    intro hsorted hT hties
    rcases List.pairwise_cons.mp hsorted with ⟨hble, hsorted'⟩
    rcases List.pairwise_cons.mp hT with ⟨hbT, hT'⟩
    simp only [insertSorted]
    by_cases hle : le a b = true
    · rw [if_pos hle]
      constructor
      · refine List.pairwise_cons.mpr ⟨?_, hsorted⟩
        intro y hy
        rcases List.mem_cons.mp hy with rfl | hy'
        · exact hle
        · exact htrans a b y hle (hble y hy')
      · refine List.pairwise_cons.mpr ⟨?_, hT⟩
        intro y hy
        rcases List.mem_cons.mp hy with rfl | hy'
        · by_cases hba : le y a = true
          · exact hties y (List.mem_cons_self _ _) hle hba
          · exact hstrict a y hle hba
        · have hay : le a y = true := htrans a b y hle (hble y hy')
          by_cases hya : le y a = true
          · exact hties y (List.mem_cons_of_mem _ hy') hay hya
          · exact hstrict a y hay hya
    · rw [if_neg hle]
      have hba : le b a = true := (htotal a b).resolve_left hle
      rcases ih hsorted' hT' (fun c hc => hties c (List.mem_cons_of_mem _ hc)) with ⟨ihs, ihT⟩
      constructor
      · refine List.pairwise_cons.mpr ⟨?_, ihs⟩
        intro y hy
        rcases (mem_insertSorted le a y l).mp hy with rfl | hy'
        · exact hba
        · exact hble y hy'
      · refine List.pairwise_cons.mpr ⟨?_, ihT⟩
        intro y hy
        rcases (mem_insertSorted le a y l).mp hy with rfl | hy'
        · exact hstrict b y hba hle
        · exact hbT y hy'

/-- A stable sort is ordered by the comparator, and ties keep their
input order: if every tied pair of the input already satisfies `T` in
input order, and strictly ordered pairs satisfy `T` as well, then the
output is pairwise `T`. -/
theorem stableSortBy_pairwise {α : Type} (le : α → α → Bool) (T : α → α → Prop)
    (htotal : ∀ x y, le x y = true ∨ le y x = true)
    (htrans : ∀ x y z, le x y = true → le y z = true → le x z = true)
    (hstrict : ∀ x y, le x y = true → ¬ le y x = true → T x y) :
    ∀ l : List α,
      l.Pairwise (fun a b => le a b = true → le b a = true → T a b) →
      (stableSortBy le l).Pairwise (fun x y => le x y = true) ∧
        (stableSortBy le l).Pairwise T := by
  intro l
  induction l with
  | nil => intro _; constructor <;> simp [stableSortBy]
  | cons a l ih =>
    intro hl
    rcases List.pairwise_cons.mp hl with ⟨hahead, hl'⟩
    rcases ih hl' with ⟨ihs, ihT⟩
    exact insertSorted_pairwise le T htotal htrans hstrict a (stableSortBy le l) ihs ihT
      (fun b hb => hahead b ((mem_stableSortBy le b l).mp hb))

theorem flatMap_eq_singleton_cases {α β : Type} :
    ∀ (xs : List α) (f : α → List β) (b : β), xs.flatMap f = [b] →
      ∃ x ∈ xs, f x = [b] ∧ ∀ y ∈ xs, y ≠ x → f y = [] := by
  intro xs
  induction xs with
  | nil => intro f b h; simp at h
  | cons x rest ih =>
    intro f b h
    rw [List.flatMap_cons] at h
    cases hfx : f x with
    | nil =>
      rw [hfx, List.nil_append] at h
      rcases ih f b h with ⟨x0, hx0, hfx0, hrest⟩
      refine ⟨x0, List.mem_cons_of_mem _ hx0, hfx0, ?_⟩
      intro y hy hne
      rcases List.mem_cons.mp hy with rfl | hy'
      · exact hfx
      · exact hrest y hy' hne
    | cons c cs =>
      rw [hfx] at h
      have h2 : c = b ∧ cs ++ rest.flatMap f = [] := by
        rw [List.cons_append] at h
        exact ⟨by injection h, by injection h⟩
      rcases h2 with ⟨rfl, h2⟩
      rcases List.append_eq_nil.mp h2 with ⟨hcs, hfr⟩
      have hrest0 : ∀ y ∈ rest, f y = [] := List.flatMap_eq_nil_iff.mp hfr
      refine ⟨x, List.mem_cons_self _ _, by rw [hfx, hcs], ?_⟩
      intro y hy hne
      rcases List.mem_cons.mp hy with rfl | hy'
      · exact absurd rfl hne
      · exact hrest0 y hy'

theorem map_eq_singleton_cases {α β : Type} {f : α → β} {b : β} :
    ∀ {l : List α}, l.map f = [b] → ∃ a, l = [a] ∧ f a = b := by
  intro l h
  cases l with
  | nil => simp at h
  | cons a l' =>
    cases l' with
    | nil => exact ⟨a, rfl, by simpa using h⟩
    | cons a2 l2 => simp at h

/-- The scope categories of `NodeContext.scope` in the source:
`'global' | 'class' | 'function' | 'method' | 'namespace'`. -/
inductive ScopeKind : Type
  | globalScope
  | classScope
  | functionScope
  | methodScope
  | namespaceScope
deriving DecidableEq

/-- Rendering of a `ScopeKind` in template strings. -/
def scopeKindStr : ScopeKind → Str
  | .globalScope => str "global"
  | .classScope => str "class"
  | .functionScope => str "function"
  | .methodScope => str "method"
  | .namespaceScope => str "namespace"

/-- Model of the `NodeContext` interface.  The `parent` and `children`
links are never read by any of the modelled operations
(`matchesContext`, `findAllOccurrences`, `applyEdit`, suggestion
generation) and are omitted. -/
structure NodeContext where
  kind : Str
  name : Str
  startLine : Nat
  endLine : Nat
  startChar : Nat
  endChar : Nat
  text : Str
  scope : ScopeKind
deriving DecidableEq

/-- Model of the `EditContext` interface; `none` is JavaScript
`undefined` (field absent). -/
structure EditContext where
  withinFunction : Option Str := none
  withinClass : Option Str := none
  withinInterface : Option Str := none
  withinMethod : Option Str := none
  withinNamespace : Option Str := none
  atLine : Option Nat := none
  requireUnique : Option Bool := none
deriving DecidableEq, Inhabited

/-- The strategy tags of `DisambiguationSuggestion.strategy`. -/
inductive Strategy : Type
  | surrounding_context
  | comment_context
  | line_context
  | scope_context
deriving DecidableEq

/-- Model of `DisambiguationSuggestion`.  The source stores `confidence`
as the float constants `0.9`, `0.8`, `0.7`; only their relative order is
ever observed (by the sort comparator), so they are modelled
order-faithfully in tenths as the naturals `9`, `8`, `7`. -/
structure DisambiguationSuggestion where
  strategy : Strategy
  description : Str
  oldString : Str
  newString : Str
  confidence : Nat
  line : Nat
deriving DecidableEq

/-- One entry of `analysis.occurrences` in `analyzeEditContext`. -/
structure Occurrence where
  line : Nat
  column : Nat
  text : Str
  nodeContext : Option NodeContext
  surroundingContext : Str
deriving DecidableEq

/-- Model of the `EditValidation` interface. -/
structure EditValidation where
  isUnique : Bool
  isSafe : Bool
  syntaxValid : Bool
  occurrences : Nat
  indentationIssues : List Str
  syntaxWarnings : List Str
  suggestions : List DisambiguationSuggestion
deriving DecidableEq

/-- Model of the `EditResult` interface; absent optional fields are
`none`. -/
structure EditResult where
  success : Bool
  message : Option Str := none
  error : Option Str := none
  warnings : Option (List Str) := none
  context : Option Str := none
  linesChanged : Option Nat := none
  preview : Option Str := none
  validation : Option EditValidation := none
deriving DecidableEq

/-- The analysis record built by `analyzeEditContext`. -/
structure Analysis where
  searchText : Str
  context : EditContext
  occurrences : List Occurrence
  targetNodes : List NodeContext
  scope : ScopeKind
deriving DecidableEq

/-- State of a `TSContextEngine` instance.  `sourceText` and `lines` are
the fields of the same names.  `nodes` models `this.sourceFile`: the
preorder list of `NodeContext` records that the `visit` traversal of
`findTargetNodes` would build from the parsed tree (the TypeScript
parser itself is outside the repository).  The optional `this.program`
(a `ts.Program`, created only when a `tsconfig.json` is found) is
modelled as absent — `createTSProgram`'s fallback path; its only
observable effect would be extra strings appended to `syntaxWarnings` in
`validateSyntax`. -/
structure Engine where
  sourceText : Str
  lines : List Str
  nodes : List NodeContext
deriving DecidableEq

/-- Model of the `TSContextEngine` constructor: reads the file and
derives the line table; `nodes` stands for the parse of that content. -/
def mkEngine (disk : Str) (nodes : List NodeContext) : Engine :=
  { sourceText := disk, lines := splitLines disk, nodes := nodes }

/-- JavaScript truthiness of an optional string (`undefined` and `''`
are falsy). -/
def optTruthy (o : Option Str) : Bool :=
  match o with
  | some s => decide (s ≠ [])
  | none => false

/-- Model of `matchesContext` (the five early-return clauses, in source
order). -/
def matchesContext (n : NodeContext) (ctx : EditContext) : Bool :=
  (optTruthy ctx.withinFunction && decide (n.scope = ScopeKind.functionScope)
    && decide (some n.name = ctx.withinFunction)) ||
  (optTruthy ctx.withinClass && decide (n.scope = ScopeKind.classScope)
    && decide (some n.name = ctx.withinClass)) ||
  (optTruthy ctx.withinMethod && decide (n.scope = ScopeKind.methodScope)
    && decide (some n.name = ctx.withinMethod)) ||
  (optTruthy ctx.withinInterface && decide (n.kind = str "InterfaceDeclaration")
    && decide (some n.name = ctx.withinInterface)) ||
  (optTruthy ctx.withinNamespace && decide (n.scope = ScopeKind.namespaceScope)
    && decide (some n.name = ctx.withinNamespace))

/-- Model of `findTargetNodes`: the preorder `visit` traversal collects
exactly the node contexts matching the edit context, in preorder. -/
def findTargetNodes (eng : Engine) (ctx : EditContext) : List NodeContext :=
  eng.nodes.filter fun n => matchesContext n ctx

/-- The guard of `analyzeEditContext`:
`context.withinFunction || context.withinClass || context.withinInterface
|| context.withinMethod || context.withinNamespace`. -/
def hasScopeFilter (ctx : EditContext) : Bool :=
  optTruthy ctx.withinFunction || optTruthy ctx.withinClass ||
  optTruthy ctx.withinInterface || optTruthy ctx.withinMethod ||
  optTruthy ctx.withinNamespace

/-- Model of `determineScopeType` (source order of the checks). -/
def determineScopeType (ctx : EditContext) : ScopeKind :=
  if optTruthy ctx.withinNamespace then ScopeKind.namespaceScope
  else if optTruthy ctx.withinClass then ScopeKind.classScope
  else if optTruthy ctx.withinMethod then ScopeKind.methodScope
  else if optTruthy ctx.withinFunction then ScopeKind.functionScope
  else ScopeKind.globalScope

/-- Model of `getLinesInNodes`: each node contributes the line numbers
`startLine..endLine`, collected into a `Set` (first-insertion dedup) and
then sorted ascending. -/
def getLinesInNodes (nodes : List NodeContext) : List Nat :=
  stableSortBy (fun a b => decide (a ≤ b))
    ((nodes.flatMap fun n => List.range' n.startLine (n.endLine + 1 - n.startLine)).dedup)

/-- Model of `array.slice(s, e)` on the line table. -/
def sliceLines (lines : List Str) (s e : Nat) : List Str :=
  (lines.drop s).take (e - s)

/-- Model of `getSurroundingContext`: the window of `contextLines` lines
each side, clipped at the file bounds, joined with newlines. -/
def getSurroundingContext (eng : Engine) (lineIndex contextLines : Nat) : Str :=
  joinLines (sliceLines eng.lines (lineIndex - contextLines)
    (min eng.lines.length (lineIndex + contextLines + 1)))

/-- Model of `getSurroundingLines` (same window, unjoined). -/
def getSurroundingLines (eng : Engine) (lineIndex contextLines : Nat) : List Str :=
  sliceLines eng.lines (lineIndex - contextLines)
    (min eng.lines.length (lineIndex + contextLines + 1))

/-- Model of `hasNearbyComment`: scans lines `lineIndex - 2` through
`min (length - 1) (lineIndex + 2)` for `//` or a block-comment opener.
Out-of-range accesses are modelled as the empty line, which contains
neither marker — the same observable outcome as the JS bounds. -/
def hasNearbyComment (eng : Engine) (lineIndex : Nat) : Bool :=
  (List.range' (lineIndex - 2)
      (min (eng.lines.length - 1) (lineIndex + 2) + 1 - (lineIndex - 2))).any
    fun i =>
      containsSub (str "//") (eng.lines.getD i []) ||
      containsSub (str "/*") (eng.lines.getD i [])

/-- The loop `while (start > 0 && (lines[start-1].includes('//') ||
lines[start-1].trim() === '')) start--` of `getCommentContext`. -/
def commentStartGo (lines : List Str) : Nat → Nat
  | 0 => 0
  | s + 1 =>
    if containsSub (str "//") (lines.getD s []) || trimEmpty (lines.getD s []) then
      commentStartGo lines s
    else s + 1

/-- The loop `while (end < this.lines.length - 1 && ...) end++` of
`getCommentContext`; `fuel ≥ lines.length` covers every run. -/
def commentEndGo (lines : List Str) : Nat → Nat → Nat
  | 0, e => e
  | fuel + 1, e =>
    if e < lines.length - 1 ∧
        (containsSub (str "//") (lines.getD (e + 1) []) ||
          trimEmpty (lines.getD (e + 1) [])) = true then
      commentEndGo lines fuel (e + 1)
    else e

/-- Model of `getCommentContext`. -/
def getCommentContext (eng : Engine) (lineIndex : Nat) : Str :=
  let s := commentStartGo eng.lines lineIndex
  let e := commentEndGo eng.lines eng.lines.length lineIndex
  joinLines (sliceLines eng.lines s (e + 1))

/-- Return shape of `validateInputs`. -/
structure InputValidation where
  valid : Bool
  error : Option Str := none
  warnings : Option (List Str) := none
deriving DecidableEq

/-- Model of `validateInputs`. -/
def validateInputs (oldText newText : Str) : InputValidation :=
  if trimEmpty oldText then
    { valid := false, error := some (str "Old text cannot be empty") }
  else if oldText = newText then
    { valid := false, error := some (str "Old and new text are identical") }
  else
    { valid := true,
      warnings := some (if oldText.length > 10000 then
        [str "Large text replacement - consider breaking into smaller edits"] else []) }

/-- Model of `validateIndentation`: line-pairwise comparison of leading
whitespace, flagged only when both lines have non-blank content. -/
def validateIndentation (oldText newText : Str) : List Str :=
  let oldLines := splitLines oldText
  let newLines := splitLines newText
  (List.range (min oldLines.length newLines.length)).filterMap fun i =>
    let oldIndent := (oldLines.getD i []).takeWhile isWs
    let newIndent := (newLines.getD i []).takeWhile isWs
    if oldIndent ≠ newIndent ∧ ¬ trimEmpty (oldLines.getD i []) = true ∧
        ¬ trimEmpty (newLines.getD i []) = true then
      some (str "Line " ++ natStr (i + 1) ++ str ": Indentation changed from \""
        ++ oldIndent ++ str "\" to \"" ++ newIndent ++ str "\"")
    else none

def braceOpen : Char := Char.ofNat 123

def braceClose : Char := Char.ofNat 125

def parenOpen : Char := Char.ofNat 40

def parenClose : Char := Char.ofNat 41

/-- Return shape of the balance checkers. -/
structure BalanceCheck where
  balanced : Bool
  error : Option Str := none
deriving DecidableEq

/-- The counting loop shared by `checkBraceBalance` and
`checkParenBalance`; `none` is the early `return` on a negative count. -/
def checkBalanceGo (openC closeC : Char) : Str → Int → Option Int
  | [], n => some n
  | c :: rest, n =>
    let n1 : Int := if c = openC then n + 1 else n
    let n2 : Int := if c = closeC then n1 - 1 else n1
    if n2 < 0 then none else checkBalanceGo openC closeC rest n2

/-- Model of `checkBraceBalance`. -/
def checkBraceBalance (text : Str) : BalanceCheck :=
  match checkBalanceGo braceOpen braceClose text 0 with
  | none => { balanced := false, error := some (str "Closing brace without opening brace") }
  | some n =>
    if n = 0 then { balanced := true }
    else { balanced := false, error := some (intStr n ++ str " unclosed opening braces") }

/-- Model of `checkParenBalance`. -/
def checkParenBalance (text : Str) : BalanceCheck :=
  match checkBalanceGo parenOpen parenClose text 0 with
  | none => { balanced := false, error := some (str "Closing paren without opening paren") }
  | some n =>
    if n = 0 then { balanced := true }
    else { balanced := false, error := some (intStr n ++ str " unclosed opening parentheses") }

/-- Model of `validateSyntax` (the unused `analysis` parameter is
dropped; the `this.program` semantic-diagnostics branch is absent, see
`Engine`).  Returns `(valid, warnings)` with
`valid := warnings.length === 0`. -/
def validateSyntax (newText : Str) : Bool × List Str :=
  let bb := checkBraceBalance newText
  let w1 : List Str := if bb.balanced then [] else
    [str "Unbalanced braces: " ++ bb.error.getD []]
  let pb := checkParenBalance newText
  let w2 : List Str := if pb.balanced then [] else
    [str "Unbalanced parentheses: " ++ pb.error.getD []]
  let warnings := w1 ++ w2
  (warnings.isEmpty, warnings)

/-- Model of `countActualChanges`: line-by-line diff count, missing
lines reading as `''`. -/
def countActualChanges (oldContent newContent : Str) : Nat :=
  let oldLines := splitLines oldContent
  let newLines := splitLines newContent
  (List.range (max oldLines.length newLines.length)).countP fun i =>
    decide (oldLines.getD i [] ≠ newLines.getD i [])

/-- Model of `countPotentialChanges`. -/
def countPotentialChanges (analysis : Analysis) : Nat :=
  analysis.occurrences.length

/-- Model of `(this.sourceText.match(regex) || []).length` for the
global regex built from the escaped literal `pat`: the number of
non-overlapping left-to-right occurrences. -/
def countMatches (pat s : Str) : Nat := (scanOccurrences pat s).length


/-- The preview-building loop of `generatePreview`: a working copy of
the line table, updated in occurrence order (re-reading the possibly
already-updated line each time, as the JS mutation does). -/
def applyPreviewOccs (oldText newText : Str) (lines0 : List Str)
    (occs : List Occurrence) : List Str :=
  occs.foldl (fun ls occ =>
    if containsSub oldText (ls.getD occ.line []) then
      ls.set occ.line (replaceFirst oldText newText (ls.getD occ.line []))
    else ls) lines0

/-- Model of `generatePreview`: unified-diff-style hunks, one per
occurrence, with three context lines and a `+` mark on changed target
lines. -/
def generatePreview (eng : Engine) (oldText newText : Str) (analysis : Analysis) : Str :=
  let lines := applyPreviewOccs oldText newText eng.lines analysis.occurrences
  let diff := analysis.occurrences.flatMap fun occ =>
    let s := occ.line - 3
    let e := min lines.length (occ.line + 3 + 1)
    (str "@@ -" ++ natStr (s + 1) ++ str "," ++ natStr (e - s) ++ str " +"
      ++ natStr (s + 1) ++ str "," ++ natStr (e - s) ++ str " @@") ::
    (List.range' s (e - s)).map fun i =>
      (if i = occ.line then
        (if eng.lines.getD i [] ≠ lines.getD i [] then Char.ofNat 43 else Char.ofNat 32)
       else Char.ofNat 32) :: lines.getD i []
  joinLines diff

/-- Model of `findAllOccurrences`.  When target nodes are present the
scan is restricted to their line set, otherwise it is global.  `none`
models the non-terminating `while` loop: for an empty search text,
`line.indexOf('', columnIndex)` never returns `-1`, so the loop diverges
as soon as any line is scanned.  A line index beyond the file (possible
only if a node's recorded span exceeds the line table) is modelled as an
empty line, which yields no occurrences. -/
def findAllOccurrences (eng : Engine) (searchText : Str)
    (targetNodes : List NodeContext) : Option (List Occurrence) :=
  let searchLines := if targetNodes.length > 0 then getLinesInNodes targetNodes
    else List.range eng.lines.length
  if searchText = [] ∧ searchLines ≠ [] then none
  else
    some (searchLines.flatMap fun lineIndex =>
      let line := eng.lines.getD lineIndex []
      (scanOccurrences searchText line).map fun columnIndex =>
        { line := lineIndex
          column := columnIndex
          text := line
          nodeContext := targetNodes.find? fun node =>
            decide (node.startLine ≤ lineIndex) && decide (lineIndex ≤ node.endLine)
          surroundingContext := getSurroundingContext eng lineIndex 3 })

/-- Model of `analyzeEditContext`. -/
def analyzeEditContext (eng : Engine) (searchText : Str) (ctx : EditContext) :
    Option Analysis :=
  let targetNodes := if hasScopeFilter ctx then findTargetNodes eng ctx else []
  let scope := if hasScopeFilter ctx then determineScopeType ctx else ScopeKind.globalScope
  (findAllOccurrences eng searchText targetNodes).map fun occs =>
    { searchText := searchText, context := ctx, occurrences := occs,
      targetNodes := targetNodes, scope := scope }

/-- The per-occurrence body of `generateDisambiguationSuggestions`:
the surrounding-context (0.9), comment-context (0.8) and scope-context
(0.7) strategies, pushed in that order. -/
def suggestionsForOccurrence (eng : Engine) (oldText newText : Str)
    (occ : Occurrence) : List DisambiguationSuggestion :=
  let surroundingContext := joinLines (getSurroundingLines eng occ.line 2)
  let s1 : List DisambiguationSuggestion :=
    if containsSub oldText surroundingContext then
      [{ strategy := Strategy.surrounding_context
         description := str "Use surrounding context for occurrence at line "
           ++ natStr (occ.line + 1)
         oldString := surroundingContext
         newString := replaceFirst oldText newText surroundingContext
         confidence := 9
         line := occ.line + 1 }]
    else []
  let lineText := eng.lines.getD occ.line []
  let s2 : List DisambiguationSuggestion :=
    if containsSub (str "//") lineText || hasNearbyComment eng occ.line then
      let commentContext := getCommentContext eng occ.line
      [{ strategy := Strategy.comment_context
         description := str "Use comment context for occurrence at line "
           ++ natStr (occ.line + 1)
         oldString := commentContext
         newString := replaceFirst oldText newText commentContext
         confidence := 8
         line := occ.line + 1 }]
    else []
  let s3 : List DisambiguationSuggestion :=
    match occ.nodeContext with
    | some nc =>
      [{ strategy := Strategy.scope_context
         description := str "Edit within " ++ scopeKindStr nc.scope ++ str " "
           ++ apostrophe :: (nc.name ++ [apostrophe])
         oldString := oldText
         newString := newText
         confidence := 7
         line := occ.line + 1 }]
    | none => []
  s1 ++ s2 ++ s3

/-- Model of `generateDisambiguationSuggestions`: all per-occurrence
suggestions, sorted by `(a, b) => b.confidence - a.confidence` (a stable
descending sort on confidence). -/
def generateDisambiguationSuggestions (eng : Engine) (oldText newText : Str)
    (occurrences : List Occurrence) : List DisambiguationSuggestion :=
  stableSortBy (fun a b => decide (b.confidence ≤ a.confidence))
    (occurrences.flatMap (suggestionsForOccurrence eng oldText newText))

/-- Model of `validateEdit`. -/
def validateEdit (eng : Engine) (oldText newText : Str) (analysis : Analysis) :
    EditValidation :=
  let isUnique := decide (analysis.occurrences.length = 1)
  let indentationIssues := validateIndentation oldText newText
  let syntaxCheck := validateSyntax newText
  let suggestions := if isUnique then []
    else generateDisambiguationSuggestions eng oldText newText analysis.occurrences
  let isSafe := syntaxCheck.1 && indentationIssues.isEmpty &&
    (isUnique || decide (analysis.context.requireUnique = some false))
  { isUnique := isUnique
    isSafe := isSafe
    syntaxValid := syntaxCheck.1
    occurrences := analysis.occurrences.length
    indentationIssues := indentationIssues
    syntaxWarnings := syntaxCheck.2
    suggestions := suggestions }

/-- The loop of `replaceInScope`: from `scope.startLine` up to
`scope.endLine` (and within the line table), replace inside the first
line containing `oldText` and stop.  The loop exits once `i` reaches
`lines.length`, so any `fuel ≥ lines.length` reproduces it. -/
def replaceInScopeGo (oldText newText : Str) :
    Nat → Nat → Nat → List Str → List Str
  | 0, _, _, lines => lines
  | fuel + 1, i, endL, lines =>
    if i ≤ endL ∧ i < lines.length then
      if containsSub oldText (lines.getD i []) then
        lines.set i (replaceFirst oldText newText (lines.getD i []))
      else replaceInScopeGo oldText newText fuel (i + 1) endL lines
    else lines

/-- Model of `replaceInScope`. -/
def replaceInScope (content oldText newText : Str) (scope : NodeContext) : Str :=
  let lines := splitLines content
  joinLines (replaceInScopeGo oldText newText lines.length scope.startLine scope.endLine lines)

/-- Model of `applyEdit`.  The returned `Str` is the content written to
the file by `fs.writeFileSync`.  Note the source computes
`countActualChanges(this.sourceText, newContent)` only after
`this.sourceText = newContent`, so both arguments are the post-edit
content. -/
def applyEdit (eng : Engine) (oldText newText : Str) (analysis : Analysis) :
    EditResult × Engine × Str :=
  let pair :=
    match analysis.targetNodes with
    | scope0 :: _ => (replaceInScope eng.sourceText oldText newText scope0, (1 : Nat))
    | [] => (replaceAll oldText newText eng.sourceText, countMatches oldText eng.sourceText)
  let newContent := pair.1
  let replacements := pair.2
  let eng' : Engine := { eng with sourceText := newContent, lines := splitLines newContent }
  let ctxName :=
    match analysis.targetNodes with
    | scope0 :: _ => if scope0.name = [] then str "global" else scope0.name
    | [] => str "global"
  ({ success := true
     message := some (str "Successfully applied " ++ natStr replacements
       ++ str " replacement(s)")
     context := some ctxName
     linesChanged := some (countActualChanges eng'.sourceText newContent) },
   eng', newContent)

/-- Model of `editWithContext`.  The `disk` argument is the current file
content; the third component of the result is the file content after the
call. -/
def editWithContext (eng : Engine) (disk : Str) (oldText newText : Str)
    (ctx : EditContext) : Option (EditResult × Engine × Str) :=
  let inputValidation := validateInputs oldText newText
  if inputValidation.valid = false then
    some ({ success := false, error := inputValidation.error,
            warnings := inputValidation.warnings }, eng, disk)
  else
    (analyzeEditContext eng oldText ctx).map fun analysis =>
      let validation := validateEdit eng oldText newText analysis
      if validation.isSafe = false then
        ({ success := false
           error := some (str "Edit failed safety validation")
           validation := some validation
           warnings := some (validation.syntaxWarnings ++ validation.indentationIssues) },
         eng, disk)
      else if validation.isUnique = false ∧ ctx.requireUnique ≠ some false then
        ({ success := false
           error := some (str "Found " ++ natStr validation.occurrences
             ++ str " occurrences. Edit is ambiguous.")
           validation := some validation
           warnings := some [str "Use more specific context or accept multiple replacements"] },
         eng, disk)
      else
        let r := applyEdit eng oldText newText analysis
        ({ r.1 with validation := some validation }, r.2.1, r.2.2)

/-- Model of `previewEdit`.  It runs the same analysis and validation as
a real edit but never writes: it takes no disk state and returns none.
`none` is inherited from `analyzeEditContext`: with an empty `oldText`
the occurrence scan never terminates (there is no `validateInputs` guard
on this path). -/
def previewEdit (eng : Engine) (oldText newText : Str) (ctx : EditContext) :
    Option EditResult :=
  (analyzeEditContext eng oldText ctx).map fun analysis =>
    let validation := validateEdit eng oldText newText analysis
    let preview := generatePreview eng oldText newText analysis
    { success := true
      message := some (str "Preview generated successfully")
      preview := some preview
      validation := some validation
      linesChanged := some (countPotentialChanges analysis) }

/-- Model of `MultiEditOperation` from `enhanced-editing.ts`. -/
structure MultiEditOperation where
  oldString : Str
  newString : Str
  context : Option EditContext := none
deriving DecidableEq

/-- Model of `EnhancedEditResult` from `enhanced-editing.ts`. -/
structure EnhancedEditResult where
  success : Bool
  message : Option Str := none
  error : Option Str := none
  warnings : Option (List Str) := none
  editsApplied : Nat
  linesChanged : Nat
  preview : Option Str := none
  suggestions : Option (List DisambiguationSuggestion) := none
  validation : Option EditValidation := none
deriving DecidableEq

/-- The per-operation context of `enhancedMultiEdit`:
`{...op.context, requireUnique: op.context?.requireUnique ?? true}`. -/
def mergedContext (op : MultiEditOperation) : EditContext :=
  let base := op.context.getD {}
  { base with requireUnique := some (base.requireUnique.getD true) }

/-- The pre-validation loop of `enhancedMultiEdit`: preview every
operation against the untouched engine; an unsuccessful preview aborts
with an error result, otherwise the previews' suggestions are collected. -/
def prevalidate (eng : Engine) : Nat → List MultiEditOperation →
    Option (Except EnhancedEditResult (List DisambiguationSuggestion))
  | _, [] => some (Except.ok [])
  | index, op :: rest =>
    match previewEdit eng op.oldString op.newString (mergedContext op) with
    | none => none
    | some preview =>
      if preview.success = false then
        some (Except.error
          { success := false
            error := some (str "Operation " ++ natStr (index + 1)
              ++ str " failed validation: " ++ preview.error.getD (str "undefined"))
            editsApplied := 0
            linesChanged := 0
            warnings := preview.warnings })
      else
        match prevalidate eng (index + 1) rest with
        | none => none
        | some (Except.error r) => some (Except.error r)
        | some (Except.ok sugg) =>
          some (Except.ok ((preview.validation.map (fun v => v.suggestions)).getD [] ++ sugg))

/-- The apply loop of `enhancedMultiEdit`: operations run in order on
the shared engine; the first failure writes the `backup` snapshot back
to disk and aborts. -/
def applyOps (backup : Str) (allSuggestions : List DisambiguationSuggestion) :
    Nat → Engine → Str → Nat → Nat → List Str → List MultiEditOperation →
    Option (EnhancedEditResult × Engine × Str)
  | _, eng, disk, applied, changed, warnings, [] =>
    some ({ success := true
            message := some (str "Successfully applied " ++ natStr applied
              ++ str " edit operations")
            editsApplied := applied
            linesChanged := changed
            warnings := some warnings
            suggestions := some allSuggestions }, eng, disk)
  | index, eng, disk, applied, changed, warnings, op :: rest =>
    match editWithContext eng disk op.oldString op.newString (mergedContext op) with
    | none => none
    | some (result, eng', disk') =>
      if result.success then
        applyOps backup allSuggestions (index + 1) eng' disk' (applied + 1)
          (changed + result.linesChanged.getD 0) (warnings ++ result.warnings.getD []) rest
      else
        some ({ success := false
                error := some (str "Operation " ++ natStr (index + 1) ++ str " failed: "
                  ++ result.error.getD (str "undefined") ++ str ". All changes rolled back.")
                editsApplied := 0
                linesChanged := 0
                warnings := result.warnings }, eng', backup)

/-- Model of the module-level `enhancedMultiEdit(filePath, operations)`:
a fresh `EnhancedEditor` (hence a fresh engine parsed from the current
disk content), pre-validation of every operation, then the atomic apply
loop with the pre-batch content as backup.  The third component of the
result is the file content on disk after the call returns; `none` means
the call never returns (see `findAllOccurrences`). -/
def enhancedMultiEdit (disk : Str) (nodes : List NodeContext)
    (operations : List MultiEditOperation) :
    Option (EnhancedEditResult × Engine × Str) :=
  let eng := mkEngine disk nodes
  match prevalidate eng 0 operations with
  | none => none
  | some (Except.error r) => some (r, eng, disk)
  | some (Except.ok allSuggestions) =>
    applyOps disk allSuggestions 0 eng disk 0 0 [] operations

theorem getD_mem {L : List Str} {i : Nat} (h : i < L.length) : L.getD i [] ∈ L := by
  rw [List.getD_eq_getElem?_getD, List.getElem?_eq_getElem h]
  exact List.getElem_mem h

theorem getD_set_ne {L : List Str} {i j : Nat} {a : Str} (h : i ≠ j) :
    (L.set i a).getD j [] = L.getD j [] := by
  simp [List.getD_eq_getElem?_getD, List.getElem?_set_ne h]

/-- C3: `validateEdit` derives `isSafe` exactly as
`syntaxValid && indentationIssues.length === 0 &&
(isUnique || requireUnique === false)`; it is never set independently of
this formula. -/
theorem C3_isSafe_formula (eng : Engine) (oldText newText : Str) (analysis : Analysis) :
    (validateEdit eng oldText newText analysis).isSafe =
      ((validateEdit eng oldText newText analysis).syntaxValid &&
        (validateEdit eng oldText newText analysis).indentationIssues.isEmpty &&
        ((validateEdit eng oldText newText analysis).isUnique ||
          decide (analysis.context.requireUnique = some false))) := rfl

/-- C8: for a search text with exactly one occurrence under a context
with no scope filter (a global search), validation reports
`isUnique = true` and the disambiguation engine is never invoked, so
the suggestion list is empty. -/
theorem C8_unique_no_suggestions (eng : Engine) (oldText newText : Str)
    (ctx : EditContext) (an : Analysis)
    (hctx : hasScopeFilter ctx = false)
    (han : analyzeEditContext eng oldText ctx = some an)
    (hone : an.occurrences.length = 1) :
    (validateEdit eng oldText newText an).isUnique = true ∧
      (validateEdit eng oldText newText an).suggestions = [] := by
  constructor
  · simp [validateEdit, hone]
  · simp [validateEdit, hone]

def engC8 : Engine := mkEngine (str "ab") []

def anC8 : Analysis :=
  (analyzeEditContext engC8 (str "a") {}).getD
    { searchText := [], context := {}, occurrences := [], targetNodes := [],
      scope := ScopeKind.globalScope }

theorem C8_witness :
    (validateEdit engC8 (str "a") (str "z") anC8).isUnique = true ∧
      (validateEdit engC8 (str "a") (str "z") anC8).suggestions = [] :=
  C8_unique_no_suggestions engC8 (str "a") (str "z") {} anC8 (by decide) (by decide)
    (by decide)

/-- C5 (code-bug evidence): a fully successful one-operation batch that
changes one line reports `linesChanged = 0`, while the full line-by-line
diff of pre- versus post-batch content is `1`.  The batch sums per-op
deltas, and each per-op delta is `countActualChanges(this.sourceText,
newContent)` computed after `this.sourceText = newContent`, i.e. always
`0`. -/
theorem C5_linesChanged_bug :
    (enhancedMultiEdit (str "a\nb") []
        [{ oldString := str "a", newString := str "c" }]).map
        (fun t => (t.1.success, t.1.linesChanged, t.2.2)) =
      some (true, 0, str "c\nb") ∧
      countActualChanges (str "a\nb") (str "c\nb") = 1 := by
  constructor
  · decide
  · decide

def nodeFoo : NodeContext :=
  { kind := str "FunctionDeclaration", name := str "foo", startLine := 0,
    endLine := 0, startChar := 0, endChar := 0, text := str "x",
    scope := ScopeKind.functionScope }

/-- C7 (code-bug evidence): `applyEdit` updates `sourceText` and
`lines` but never rebuilds the node table (`this.sourceFile` is assigned
only in the constructor), and concretely, after a successful
content-changing batch the engine still carries the nodes parsed from
the pre-edit text, which the next operation of the same editor would
use. -/
theorem C7_stale_tree :
    (∀ (eng : Engine) (oldText newText : Str) (analysis : Analysis),
      (applyEdit eng oldText newText analysis).2.1.nodes = eng.nodes) ∧
      (enhancedMultiEdit (str "x\ny") [nodeFoo]
          [{ oldString := str "x", newString := str "q" }]).map
          (fun t => (t.1.success, t.2.2, t.2.1.nodes)) =
        some (true, str "q\ny", [nodeFoo]) := by
  constructor
  · intro eng oldText newText analysis
    rfl
  · decide

/-- C2 (counterexample): an edit whose context names function `bar`
while the node table only contains function `foo` does not fail with a
not-found error — it succeeds, and the replacement is applied through
the global (whole-file) search path. -/
theorem C2_counterexample :
    (editWithContext (mkEngine (str "x\ny") [nodeFoo]) (str "x\ny")
        (str "x") (str "q") { withinFunction := some (str "bar") }).map
        (fun t => (t.1.success, t.1.error, t.2.2)) =
      some (true, none, str "q\ny") := by
  decide

/-- C2 (amended): when the named scope matches zero nodes, no distinct
error is raised; `findAllOccurrences` receives an empty target-node list
and falls back to the global whole-file search, so the analysis produces
exactly the occurrences of an unscoped request. -/
theorem C2_scope_miss_global (eng : Engine) (oldText : Str) (ctx : EditContext)
    (hfilter : hasScopeFilter ctx = true)
    (hmiss : findTargetNodes eng ctx = []) :
    (analyzeEditContext eng oldText ctx).map (fun a => a.occurrences) =
      (analyzeEditContext eng oldText ({} : EditContext)).map (fun a => a.occurrences) := by
  unfold analyzeEditContext
  have h2 : hasScopeFilter ({} : EditContext) = false := rfl
  simp only [hfilter, hmiss, h2, if_true, if_false, Bool.false_eq_true, Option.map_map]
  congr 1

theorem C2_witness :
    (analyzeEditContext (mkEngine (str "x") [nodeFoo]) (str "x")
        { withinFunction := some (str "bar") }).map (fun a => a.occurrences) =
      (analyzeEditContext (mkEngine (str "x") [nodeFoo]) (str "x")
        ({} : EditContext)).map (fun a => a.occurrences) :=
  C2_scope_miss_global (mkEngine (str "x") [nodeFoo]) (str "x")
    { withinFunction := some (str "bar") } (by decide) (by decide)

/-- C10 (counterexample): with an empty `oldString` the claim fails —
`previewEdit` never returns at all (`line.indexOf('', columnIndex)`
never yields `-1`, so the occurrence loop diverges; `none` in the
model), rather than returning a result with `success == true`. -/
theorem C10_counterexample :
    previewEdit (mkEngine (str "a") []) [] (str "c") {} = none := by
  decide

/-- C10 (amended): for every input with a non-empty `oldString`,
`previewEdit` returns `success == true` regardless of validation — the
search text may be missing, ambiguous, equal to `newString`, or unsafe —
so callers must inspect the attached validation object; the preview
reads but never writes the engine state or the file (it is a pure
function of the engine in this model). -/
theorem C10_preview_always_succeeds (eng : Engine) (oldText newText : Str)
    (ctx : EditContext) (hne : oldText ≠ []) :
    (previewEdit eng oldText newText ctx).map (fun res => res.success) = some true := by
  unfold previewEdit analyzeEditContext findAllOccurrences
  simp [hne]

theorem C10_witness :
    (previewEdit (mkEngine (str "a") []) (str "q") (str "q") {}).map
        (fun res => res.success) = some true :=
  C10_preview_always_succeeds (mkEngine (str "a") []) (str "q") (str "q") {}
    (by decide)

theorem applyOps_fail_restores (backup : Str) (sugg : List DisambiguationSuggestion) :
    ∀ (ops : List MultiEditOperation) (index : Nat) (eng : Engine) (disk : Str)
      (applied changed : Nat) (warnings : List Str)
      (r : EnhancedEditResult) (e : Engine) (d : Str),
      applyOps backup sugg index eng disk applied changed warnings ops = some (r, e, d) →
      r.success = false → d = backup := by
  intro ops
  induction ops with
  | nil =>
    intro index eng disk applied changed warnings r e d h hfail
    simp only [applyOps, Option.some.injEq] at h
    have h1 : true = r.success := congrArg (fun t => t.1.success) h
    rw [hfail] at h1
    simp at h1
  | cons op rest ih =>
    intro index eng disk applied changed warnings r e d h hfail
    cases heq : editWithContext eng disk op.oldString op.newString (mergedContext op) with
    | none =>
      simp only [applyOps, heq] at h
      exact Option.noConfusion h
    | some t =>
      obtain ⟨result, eng', disk'⟩ := t
      simp only [applyOps, heq] at h
      by_cases hs : result.success = true
      · rw [if_pos hs] at h
        exact ih _ _ _ _ _ _ r e d h hfail
      · rw [if_neg hs] at h
        simp only [Option.some.injEq] at h
        exact (congrArg (fun t => t.2.2) h : backup = d).symm

/-- C1: whenever `enhancedMultiEdit` returns an unsuccessful result —
in particular when any operation of the batch fails to apply — the file
content on disk after the call equals the content before the call, byte
for byte; partial application is never observable. -/
theorem C1_atomic_rollback (disk : Str) (nodes : List NodeContext)
    (operations : List MultiEditOperation) (r : EnhancedEditResult) (d : Str)
    (h : (enhancedMultiEdit disk nodes operations).map (fun t => (t.1, t.2.2))
      = some (r, d))
    (hfail : r.success = false) : d = disk := by
  simp only [enhancedMultiEdit] at h
  cases hpre : prevalidate (mkEngine disk nodes) 0 operations with
  | none => rw [hpre] at h; simp at h
  | some x =>
    cases x with
    | error rr =>
      rw [hpre] at h
      simp only [Option.map_some', Option.some.injEq] at h
      exact (congrArg (fun t => t.2) h : disk = d).symm
    | ok sugg =>
      rw [hpre] at h
      have h2 : (applyOps disk sugg 0 (mkEngine disk nodes) disk 0 0 [] operations).map
          (fun t => (t.1, t.2.2)) = some (r, d) := h
      clear h
      cases happ : applyOps disk sugg 0 (mkEngine disk nodes) disk 0 0 [] operations with
      | none => rw [happ] at h2; simp at h2
      | some t =>
        obtain ⟨rr, ee, dd⟩ := t
        rw [happ] at h2
        rename' h2 => h
        simp only [Option.map_some', Option.some.injEq] at h
        have hr : rr = r := congrArg (fun t => t.1) h
        have hd : dd = d := congrArg (fun t => t.2) h
        have hrf : rr.success = false := by rw [hr]; exact hfail
        rw [← hd]
        exact applyOps_fail_restores disk sugg operations 0 (mkEngine disk nodes)
          disk 0 0 [] rr ee dd happ hrf

def opsC1 : List MultiEditOperation := [{ oldString := str "x", newString := str "c" }]

def outC1 : EnhancedEditResult × Str :=
  ((enhancedMultiEdit (str "a\nb") [] opsC1).map (fun t => (t.1, t.2.2))).getD
    ({ success := true, editsApplied := 0, linesChanged := 0 }, [])

theorem C1_witness :
    ((enhancedMultiEdit (str "a\nb") [] opsC1).map (fun t => (t.1, t.2.2))
        = some (outC1.1, outC1.2)) ∧
      outC1.1.success = false ∧ outC1.2 = str "a\nb" :=
  ⟨by decide, by decide,
    C1_atomic_rollback (str "a\nb") [] opsC1 outC1.1 outC1.2 (by decide) (by decide)⟩

theorem pairwise_always {α : Type} (R : α → α → Prop) (hR : ∀ a b, R a b) :
    ∀ l : List α, l.Pairwise R := by
  intro l
  induction l with
  | nil => exact List.Pairwise.nil
  | cons a l ih => exact List.pairwise_cons.mpr ⟨fun b _ => hR a b, ih⟩

theorem pairwise_of_forall_mem {α : Type} {R : α → α → Prop} :
    ∀ {l : List α}, (∀ a ∈ l, ∀ b ∈ l, R a b) → l.Pairwise R := by
  intro l
  induction l with
  | nil => intro _; exact List.Pairwise.nil
  | cons a l ih =>
    intro h
    refine List.pairwise_cons.mpr ⟨fun b hb => h a (List.mem_cons_self _ _) b
      (List.mem_cons_of_mem _ hb), ih ?_⟩
    intro x hx y hy
    exact h x (List.mem_cons_of_mem _ hx) y (List.mem_cons_of_mem _ hy)

theorem pairwise_flatMap {α β : Type} (f : α → List β) (R : β → β → Prop) :
    ∀ l : List α,
      (∀ x ∈ l, (f x).Pairwise R) →
      l.Pairwise (fun x y => ∀ a ∈ f x, ∀ b ∈ f y, R a b) →
      (l.flatMap f).Pairwise R := by
  intro l
  induction l with
  | nil => intro _ _; simp
  | cons x rest ih =>
    intro h1 h2
    rw [List.flatMap_cons]
    apply List.pairwise_append.mpr
    refine ⟨h1 x (List.mem_cons_self _ _),
      ih (fun y hy => h1 y (List.mem_cons_of_mem _ hy)) (List.pairwise_cons.mp h2).2, ?_⟩
    intro a ha b hb
    rcases List.mem_flatMap.mp hb with ⟨y, hy, hby⟩
    exact (List.pairwise_cons.mp h2).1 y hy a ha b hby

theorem stableSortBy_sorted {α : Type} (le : α → α → Bool)
    (htotal : ∀ x y, le x y = true ∨ le y x = true)
    (htrans : ∀ x y z, le x y = true → le y z = true → le x z = true)
    (l : List α) : (stableSortBy le l).Pairwise (fun x y => le x y = true) :=
  (stableSortBy_pairwise le (fun _ _ => True) htotal htrans (fun _ _ _ _ => trivial) l
    (pairwise_always _ (fun _ _ => fun _ _ => trivial) l)).1

theorem suggestionsForOccurrence_spec (eng : Engine) (oldText newText : Str)
    (occ : Occurrence) :
    ∀ s ∈ suggestionsForOccurrence eng oldText newText occ,
      s.line = occ.line + 1 ∧
      ((s.strategy = Strategy.surrounding_context ∧ s.confidence = 9) ∨
       (s.strategy = Strategy.comment_context ∧ s.confidence = 8) ∨
       (s.strategy = Strategy.scope_context ∧ s.confidence = 7)) := by
  intro s hs
  simp only [suggestionsForOccurrence, List.mem_append] at hs
  rcases hs with (hs | hs) | hs
  · split at hs
    · rw [List.mem_singleton] at hs
      subst hs
      exact ⟨rfl, Or.inl ⟨rfl, rfl⟩⟩
    · exact absurd hs (List.not_mem_nil s)
  · split at hs
    · rw [List.mem_singleton] at hs
      subst hs
      exact ⟨rfl, Or.inr (Or.inl ⟨rfl, rfl⟩)⟩
    · exact absurd hs (List.not_mem_nil s)
  · split at hs
    · rw [List.mem_singleton] at hs
      subst hs
      exact ⟨rfl, Or.inr (Or.inr ⟨rfl, rfl⟩)⟩
    · exact absurd hs (List.not_mem_nil s)

theorem findAllOccurrences_line_mono (eng : Engine) (st : Str)
    (tn : List NodeContext) (occs : List Occurrence)
    (h : findAllOccurrences eng st tn = some occs) :
    occs.Pairwise fun o1 o2 => o1.line ≤ o2.line := by
  unfold findAllOccurrences at h
  by_cases hc : st = [] ∧
      (if tn.length > 0 then getLinesInNodes tn else List.range eng.lines.length) ≠ []
  · rw [if_pos hc] at h
    exact Option.noConfusion h
  · rw [if_neg hc] at h
    have hocc := (Option.some_inj.mp h).symm
    rw [hocc]
    have hsorted : (if tn.length > 0 then getLinesInNodes tn
        else List.range eng.lines.length).Pairwise (fun a b => a ≤ b) := by
      by_cases htn : tn.length > 0
      · rw [if_pos htn]
        have := stableSortBy_sorted (fun a b => decide (a ≤ b))
          (fun x y => by rcases Nat.le_total x y with h | h <;> simp [h])
          (fun x y z hxy hyz => by
            simp only [decide_eq_true_eq] at hxy hyz ⊢
            omega)
          ((tn.flatMap fun n => List.range' n.startLine (n.endLine + 1 - n.startLine)).dedup)
        exact this.imp (fun hab => by simpa using hab)
      · rw [if_neg htn]
        exact (List.pairwise_lt_range _).imp Nat.le_of_lt
    apply pairwise_flatMap
    · intro li _
      apply pairwise_of_forall_mem
      intro a ha b hb
      rcases List.mem_map.mp ha with ⟨ca, _, rfl⟩
      rcases List.mem_map.mp hb with ⟨cb, _, rfl⟩
      exact Nat.le_refl _
    · refine hsorted.imp ?_
      intro li lj hle a ha b hb
      rcases List.mem_map.mp ha with ⟨ca, _, rfl⟩
      rcases List.mem_map.mp hb with ⟨cb, _, rfl⟩
      exact hle

/-- C6: suggestion lists attached by validation are sorted by confidence
descending with ties (equal confidence) in ascending line order, and
each suggestion's confidence is determined by its strategy
(surrounding 0.9, comment 0.8, scope 0.7, modelled as 9/8/7) — so the
three strategies of one occurrence always appear in that order. -/
theorem C6_ranking (eng : Engine) (oldText newText : Str) (ctx : EditContext)
    (an : Analysis)
    (han : analyzeEditContext eng oldText ctx = some an) :
    ((validateEdit eng oldText newText an).suggestions.Pairwise fun a b =>
        b.confidence ≤ a.confidence ∧ (a.confidence = b.confidence → a.line ≤ b.line)) ∧
      ∀ s ∈ (validateEdit eng oldText newText an).suggestions,
        (s.strategy = Strategy.surrounding_context ↔ s.confidence = 9) ∧
        (s.strategy = Strategy.comment_context ↔ s.confidence = 8) ∧
        (s.strategy = Strategy.scope_context ↔ s.confidence = 7) := by
  have hmono : an.occurrences.Pairwise fun o1 o2 => o1.line ≤ o2.line := by
    unfold analyzeEditContext at han
    rcases Option.map_eq_some'.mp han with ⟨occs, hfind, hbuild⟩
    have : an.occurrences = occs := by rw [← hbuild]
    rw [this]
    exact findAllOccurrences_line_mono eng oldText _ occs hfind
  have hsug : (validateEdit eng oldText newText an).suggestions =
      (if decide (an.occurrences.length = 1) = true then []
       else generateDisambiguationSuggestions eng oldText newText an.occurrences) := rfl
  by_cases hone : an.occurrences.length = 1
  · rw [hsug, if_pos (by simp [hone])]
    exact ⟨List.Pairwise.nil, by intro s hs; exact absurd hs (List.not_mem_nil s)⟩
  · rw [hsug, if_neg (by simp [hone])]
    unfold generateDisambiguationSuggestions
    have hinput : (an.occurrences.flatMap
        (suggestionsForOccurrence eng oldText newText)).Pairwise
        (fun a b => a.confidence = b.confidence → a.line ≤ b.line) := by
      apply pairwise_flatMap
      · intro occ _
        apply pairwise_of_forall_mem
        intro a ha b hb
        have la := (suggestionsForOccurrence_spec eng oldText newText occ a ha).1
        have lb := (suggestionsForOccurrence_spec eng oldText newText occ b hb).1
        intro _
        rw [la, lb]
      · refine hmono.imp ?_
        intro o1 o2 hle a ha b hb _
        have la := (suggestionsForOccurrence_spec eng oldText newText o1 a ha).1
        have lb := (suggestionsForOccurrence_spec eng oldText newText o2 b hb).1
        rw [la, lb]
        omega
    constructor
    · have htotal : ∀ x y : DisambiguationSuggestion,
          decide (y.confidence ≤ x.confidence) = true ∨
            decide (x.confidence ≤ y.confidence) = true := by
        intro x y
        rcases Nat.le_total y.confidence x.confidence with h | h <;> simp [h]
      have htrans : ∀ x y z : DisambiguationSuggestion,
          decide (y.confidence ≤ x.confidence) = true →
          decide (z.confidence ≤ y.confidence) = true →
          decide (z.confidence ≤ x.confidence) = true := by
        intro x y z hxy hyz
        simp only [decide_eq_true_eq] at hxy hyz ⊢
        omega
      have hstrict : ∀ x y : DisambiguationSuggestion,
          decide (y.confidence ≤ x.confidence) = true →
          ¬ decide (x.confidence ≤ y.confidence) = true →
          y.confidence ≤ x.confidence ∧
            (x.confidence = y.confidence → x.line ≤ y.line) := by
        intro x y hxy hyx
        simp only [decide_eq_true_eq] at hxy hyx
        exact ⟨hxy, fun heq => absurd heq.ge (by omega)⟩
      refine (stableSortBy_pairwise (α := DisambiguationSuggestion)
        (fun a b => decide (b.confidence ≤ a.confidence))
        (fun a b => b.confidence ≤ a.confidence ∧
          (a.confidence = b.confidence → a.line ≤ b.line))
        htotal htrans hstrict _ ?_).2
      refine hinput.imp ?_
      intro a b hS hab hba
      simp only [decide_eq_true_eq] at hab hba
      exact ⟨hab, fun heq => hS heq⟩
    · intro s hs
      have hmem : s ∈ an.occurrences.flatMap
          (suggestionsForOccurrence eng oldText newText) :=
        (mem_stableSortBy _ s _).mp hs
      rcases List.mem_flatMap.mp hmem with ⟨occ, _, hso⟩
      rcases (suggestionsForOccurrence_spec eng oldText newText occ s hso).2 with
        ⟨h1, h2⟩ | ⟨h1, h2⟩ | ⟨h1, h2⟩ <;> rw [h1, h2] <;> refine ⟨?_, ?_, ?_⟩ <;> simp

def engC6 : Engine := mkEngine (str "a\na") []

def anC6 : Analysis :=
  (analyzeEditContext engC6 (str "a") {}).getD
    { searchText := [], context := {}, occurrences := [], targetNodes := [],
      scope := ScopeKind.globalScope }

theorem C6_witness :
    (validateEdit engC6 (str "a") (str "z") anC6).suggestions.Pairwise (fun a b =>
      b.confidence ≤ a.confidence ∧ (a.confidence = b.confidence → a.line ≤ b.line)) :=
  (C6_ranking engC6 (str "a") (str "z") {} anC6 (by decide)).1

theorem editWithContext_success_shape (eng : Engine) (disk oldText newText : Str)
    (ctx : EditContext) (r : EditResult) (d : Str) (an : Analysis)
    (han : analyzeEditContext eng oldText ctx = some an)
    (h : (editWithContext eng disk oldText newText ctx).map (fun t => (t.1, t.2.2))
      = some (r, d))
    (hsucc : r.success = true) :
    d = (applyEdit eng oldText newText an).2.2 ∧ oldText ≠ [] := by
  unfold editWithContext at h
  by_cases hiv : (validateInputs oldText newText).valid = false
  · rw [if_pos hiv] at h
    simp only [Option.map_some', Option.some.injEq] at h
    have h1 : false = r.success := congrArg (fun t => t.1.success) h
    rw [hsucc] at h1
    exact absurd h1 (by simp)
  · rw [if_neg hiv] at h
    rw [han] at h
    simp only [Option.map_some', Option.some.injEq] at h
    have hne : oldText ≠ [] := by
      intro hempty
      apply hiv
      subst hempty
      simp [validateInputs, trimEmpty]
    refine ⟨?_, hne⟩
    by_cases h1 : (validateEdit eng oldText newText an).isSafe = false
    · rw [if_pos h1] at h
      have h2 : false = r.success := congrArg (fun t => t.1.success) h
      rw [hsucc] at h2
      exact absurd h2 (by simp)
    · rw [if_neg h1] at h
      by_cases h2 : (validateEdit eng oldText newText an).isUnique = false ∧
          ctx.requireUnique ≠ some false
      · rw [if_pos h2] at h
        have h3 : false = r.success := congrArg (fun t => t.1.success) h
        rw [hsucc] at h3
        exact absurd h3 (by simp)
      · rw [if_neg h2] at h
        exact (congrArg (fun t => t.2) h :
          (applyEdit eng oldText newText an).2.2 = d).symm

theorem analyzeEditContext_unique_facts (eng : Engine) (oldText : Str)
    (ctx : EditContext) (an : Analysis) (o : Occurrence)
    (hwf : eng.lines = splitLines eng.sourceText)
    (han : analyzeEditContext eng oldText ctx = some an)
    (hnodes : an.targetNodes = [])
    (hocc : an.occurrences = [o])
    (hne : oldText ≠ []) :
    ∃ col, o.line < (splitLines eng.sourceText).length ∧ nl ∉ oldText ∧
      scanOccurrences oldText ((splitLines eng.sourceText).getD o.line []) = [col] ∧
      ∀ j, j ≠ o.line →
        scanOccurrences oldText ((splitLines eng.sourceText).getD j []) = [] := by
  unfold analyzeEditContext at han
  rcases Option.map_eq_some'.mp han with ⟨occs, hfind, hbuild⟩
  have hoccs : occs = [o] := by rw [← hocc, ← hbuild]
  have htn : an.targetNodes
      = (if hasScopeFilter ctx then findTargetNodes eng ctx else []) := by
    rw [← hbuild]
  have htn0 : (if hasScopeFilter ctx then findTargetNodes eng ctx else []) = [] := by
    rw [← htn]; exact hnodes
  rw [htn0, hoccs] at hfind
  unfold findAllOccurrences at hfind
  simp only [List.length_nil, gt_iff_lt, Nat.lt_irrefl, if_false] at hfind
  rw [if_neg (by simp [hne])] at hfind
  have hflat := Option.some_inj.mp hfind
  rcases flatMap_eq_singleton_cases _ _ _ hflat with ⟨li, hli, hfli, hothers⟩
  rcases map_eq_singleton_cases hfli with ⟨col, hcols, hmk⟩
  have holine : o.line = li := by rw [← hmk]
  have hlen : li < (splitLines eng.sourceText).length := by
    rw [← hwf]; exact List.mem_range.mp hli
  rw [hwf] at hcols
  have hinf : oldText <:+: (splitLines eng.sourceText).getD li [] := by
    by_contra hninf
    have hz := (scanOccurrences_eq_nil_iff oldText _ hne).mpr hninf
    rw [hz] at hcols
    exact absurd hcols (by simp)
  have hnl : nl ∉ oldText := by
    intro hmem
    exact nl_not_mem_splitLines eng.sourceText _ (getD_mem hlen)
      (hinf.sublist.subset hmem)
  have hzero : ∀ j, j ≠ li →
      scanOccurrences oldText ((splitLines eng.sourceText).getD j []) = [] := by
    intro j hj
    by_cases hjlen : j < (splitLines eng.sourceText).length
    · have hjr : j ∈ List.range eng.lines.length := by
        rw [hwf]; exact List.mem_range.mpr hjlen
      have := hothers j hjr hj
      rw [List.map_eq_nil_iff] at this
      rwa [hwf] at this
    · have : (splitLines eng.sourceText).getD j [] = [] := by
        rw [List.getD_eq_getElem?_getD, List.getElem?_eq_none (by omega)]
        rfl
      rw [this]
      rfl
  refine ⟨col, ?_, hnl, ?_, ?_⟩
  · rw [holine]; exact hlen
  · rw [holine]; exact hcols
  · intro j hj
    rw [holine] at hj
    exact hzero j hj

theorem editWithContext_global_unique (eng : Engine) (disk oldText newText : Str)
    (ctx : EditContext) (r : EditResult) (d : Str) (an : Analysis) (o : Occurrence)
    (hwf : eng.lines = splitLines eng.sourceText)
    (hds : dollar ∉ newText)
    (han : analyzeEditContext eng oldText ctx = some an)
    (hnodes : an.targetNodes = [])
    (hocc : an.occurrences = [o])
    (h : (editWithContext eng disk oldText newText ctx).map (fun t => (t.1, t.2.2))
      = some (r, d))
    (hsucc : r.success = true) :
    d = joinLines ((splitLines eng.sourceText).set o.line
        (replaceFirst oldText newText ((splitLines eng.sourceText).getD o.line []))) := by
  obtain ⟨hd, hne⟩ := editWithContext_success_shape eng disk oldText newText ctx
    r d an han h hsucc
  have happ : (applyEdit eng oldText newText an).2.2
      = replaceAll oldText newText eng.sourceText := by
    unfold applyEdit
    rw [hnodes]
  rcases analyzeEditContext_unique_facts eng oldText ctx an o hwf han hnodes hocc hne
    with ⟨col, hlen, hnl, hcols, hzero⟩
  rw [hd, happ, replaceAll_no_dollar oldText newText eng.sourceText hds,
    replaceFirst_no_dollar oldText newText
      ((splitLines eng.sourceText).getD o.line []) hds]
  calc replaceAllLit oldText newText eng.sourceText
      = replaceAllLit oldText newText (joinLines (splitLines eng.sourceText)) := by
        rw [joinLines_splitLines]
    _ = joinLines ((splitLines eng.sourceText).set o.line
        (replaceFirstLit oldText newText
          ((splitLines eng.sourceText).getD o.line []))) := by
        exact replaceAllLit_joinLines_set oldText newText hne hnl
          (splitLines eng.sourceText) o.line col hlen hcols hzero

theorem editWithContext_global_touches (eng : Engine) (disk oldText newText : Str)
    (ctx : EditContext) (r : EditResult) (d : Str) (an : Analysis) (o : Occurrence)
    (hwf : eng.lines = splitLines eng.sourceText)
    (han : analyzeEditContext eng oldText ctx = some an)
    (hnodes : an.targetNodes = [])
    (hocc : an.occurrences = [o])
    (h : (editWithContext eng disk oldText newText ctx).map (fun t => (t.1, t.2.2))
      = some (r, d))
    (hsucc : r.success = true) :
    ∃ x, d = joinLines ((splitLines eng.sourceText).set o.line x) := by
  obtain ⟨hd, hne⟩ := editWithContext_success_shape eng disk oldText newText ctx
    r d an han h hsucc
  have happ : (applyEdit eng oldText newText an).2.2
      = replaceAll oldText newText eng.sourceText := by
    unfold applyEdit
    rw [hnodes]
  rcases analyzeEditContext_unique_facts eng oldText ctx an o hwf han hnodes hocc hne
    with ⟨col, hlen, hnl, hcols, hzero⟩
  rcases replaceAllFrom_joinLines_touches oldText newText eng.sourceText hne hnl
    (splitLines eng.sourceText) o.line col 0 hlen hcols hzero with ⟨x, hx⟩
  have h1 : replaceAll oldText newText eng.sourceText
      = replaceAllFrom oldText newText eng.sourceText
          (joinLines (splitLines eng.sourceText)) 0 :=
    congrArg (fun t => replaceAllFrom oldText newText eng.sourceText t 0)
      (joinLines_splitLines eng.sourceText).symm
  exact ⟨x, by rw [hd, happ, h1, hx]⟩

/-- C4 (counterexample to the round-trip claim as stated): the claim
promises that the written content has the occurrence of `oldString`
replaced by `newString` literally, but `String.prototype.replace`
applies `GetSubstitution` to `newString`.  On the one-line file `ab`,
replacing the unique occurrence of `a` by the two-dollar string
`$$x` succeeds and writes `$xb` — a single dollar — not the
literal-insertion result `$$xb` the claim predicts. -/
theorem C4_counterexample :
    (editWithContext (mkEngine (str "ab") []) (str "ab") (str "a") (str "$$x")
        {}).map (fun t => (t.1.success, t.2.2))
      = some (true, str "$xb") ∧ str "$xb" ≠ str "$$xb" := by
  decide

/-- C4 (amended): for a validated, safe, unscoped edit whose `oldString`
occurs exactly once (the single occurrence `o`), provided `newString`
contains no dollar character (so ECMAScript `GetSubstitution` inserts it
literally), the applied edit writes content equal to the original lines
with exactly the first occurrence of `oldString` inside line `o.line`
replaced by `newString`; every other line is byte-identical. -/
theorem C4_roundTrip (eng : Engine) (disk oldText newText : Str) (ctx : EditContext)
    (r : EditResult) (d : Str) (an : Analysis) (o : Occurrence)
    (hwf : eng.lines = splitLines eng.sourceText)
    (hds : dollar ∉ newText)
    (hctx : hasScopeFilter ctx = false)
    (han : analyzeEditContext eng oldText ctx = some an)
    (hocc : an.occurrences = [o])
    (h : (editWithContext eng disk oldText newText ctx).map (fun t => (t.1, t.2.2))
      = some (r, d))
    (hsucc : r.success = true) :
    d = joinLines ((splitLines eng.sourceText).set o.line
        (replaceFirst oldText newText ((splitLines eng.sourceText).getD o.line []))) ∧
      ∀ j, j ≠ o.line →
        ((splitLines eng.sourceText).set o.line
            (replaceFirst oldText newText ((splitLines eng.sourceText).getD o.line []))).getD j []
          = (splitLines eng.sourceText).getD j [] := by
  have hnodes : an.targetNodes = [] := by
    unfold analyzeEditContext at han
    rcases Option.map_eq_some'.mp han with ⟨occs, hfind, hbuild⟩
    have : an.targetNodes
        = (if hasScopeFilter ctx then findTargetNodes eng ctx else []) := by
      rw [← hbuild]
    rw [this, hctx]
    simp
  refine ⟨editWithContext_global_unique eng disk oldText newText ctx r d an o
    hwf hds han hnodes hocc h hsucc, ?_⟩
  intro j hj
  exact getD_set_ne (fun he => hj he.symm)

def engC4 : Engine := mkEngine (str "ab\ncd") []

def anC4 : Analysis :=
  (analyzeEditContext engC4 (str "a") {}).getD
    { searchText := [], context := {}, occurrences := [], targetNodes := [],
      scope := ScopeKind.globalScope }

def oC4 : Occurrence :=
  anC4.occurrences.getD 0
    { line := 0, column := 0, text := [], nodeContext := none, surroundingContext := [] }

def outC4 : EditResult × Str :=
  ((editWithContext engC4 (str "ab\ncd") (str "a") (str "z") {}).map
    (fun t => (t.1, t.2.2))).getD ({ success := false }, [])

theorem C4_witness :
    outC4.2 = joinLines ((splitLines (str "ab\ncd")).set oC4.line
      (replaceFirst (str "a") (str "z") ((splitLines (str "ab\ncd")).getD oC4.line []))) :=
  (C4_roundTrip engC4 (str "ab\ncd") (str "a") (str "z") {} outC4.1 outC4.2 anC4 oC4
    (by decide) (by decide) (by decide) (by decide) (by decide) (by decide)
    (by decide)).1

theorem replaceInScopeGo_spec (oldText newText : Str) :
    ∀ (fuel i endL : Nat) (lines : List Str), lines.length ≤ i + fuel →
      (∃ j, i ≤ j ∧ j ≤ endL ∧ j < lines.length ∧
          containsSub oldText (lines.getD j []) = true ∧
          (∀ k, i ≤ k → k < j → containsSub oldText (lines.getD k []) = false) ∧
          replaceInScopeGo oldText newText fuel i endL lines =
            lines.set j (replaceFirst oldText newText (lines.getD j []))) ∨
      ((∀ j, i ≤ j → j ≤ endL → j < lines.length →
          containsSub oldText (lines.getD j []) = false) ∧
        replaceInScopeGo oldText newText fuel i endL lines = lines) := by
  intro fuel
  induction fuel with
  | zero =>
    intro i endL lines hlen
    right
    refine ⟨?_, rfl⟩
    intro j hj1 _ hj3
    exact absurd hj3 (by omega)
  | succ fuel ih =>
    intro i endL lines hlen
    by_cases hc : i ≤ endL ∧ i < lines.length
    · by_cases hm : containsSub oldText (lines.getD i []) = true
      · left
        refine ⟨i, Nat.le_refl i, hc.1, hc.2, hm, ?_, ?_⟩
        · intro k hk1 hk2
          exact absurd (Nat.lt_of_le_of_lt hk1 hk2) (by omega)
        · simp only [replaceInScopeGo, if_pos hc, if_pos hm]
      · rcases ih (i + 1) endL lines (by omega) with
          ⟨j, hj1, hj2, hj3, hj4, hj5, heq⟩ | ⟨hall, heq⟩
        · left
          refine ⟨j, by omega, hj2, hj3, hj4, ?_, ?_⟩
          · intro k hk1 hk2
            by_cases hki : k = i
            · rw [hki]
              exact Bool.eq_false_iff.mpr hm
            · exact hj5 k (by omega) hk2
          · rw [show replaceInScopeGo oldText newText (fuel + 1) i endL lines
                = replaceInScopeGo oldText newText fuel (i + 1) endL lines by
                simp only [replaceInScopeGo, if_pos hc, if_neg hm]]
            exact heq
        · right
          refine ⟨?_, ?_⟩
          · intro j hj1 hj2 hj3
            by_cases hji : j = i
            · rw [hji]
              exact Bool.eq_false_iff.mpr hm
            · exact hall j (by omega) hj2 hj3
          · rw [show replaceInScopeGo oldText newText (fuel + 1) i endL lines
                = replaceInScopeGo oldText newText fuel (i + 1) endL lines by
                simp only [replaceInScopeGo, if_pos hc, if_neg hm]]
            exact heq
    · right
      refine ⟨?_, ?_⟩
      · intro j hj1 hj2 hj3
        exact absurd (⟨by omega, by omega⟩ : i ≤ endL ∧ i < lines.length) hc
      · simp only [replaceInScopeGo, if_neg hc]

/-- C9: a successful scoped apply touches only the first line of the
resolved scope's span whose text contains `oldString` (that line alone
is substring-replaced, by the same `GetSubstitution`-based `replace`
the source calls on it; no matching line leaves the content unchanged),
while a successful unscoped unique apply rewrites only the unique
occurrence's line — every other entry of the line table is
byte-identical. -/
theorem C9_touched_lines (eng : Engine) (disk oldText newText : Str)
    (ctx : EditContext) (r : EditResult) (d : Str) (an : Analysis)
    (han : analyzeEditContext eng oldText ctx = some an)
    (h : (editWithContext eng disk oldText newText ctx).map (fun t => (t.1, t.2.2))
      = some (r, d))
    (hsucc : r.success = true) :
    (∀ n0 rest, an.targetNodes = n0 :: rest →
      ((∃ j, n0.startLine ≤ j ∧ j ≤ n0.endLine ∧
          j < (splitLines eng.sourceText).length ∧
          containsSub oldText ((splitLines eng.sourceText).getD j []) = true ∧
          (∀ k, n0.startLine ≤ k → k < j →
            containsSub oldText ((splitLines eng.sourceText).getD k []) = false) ∧
          d = joinLines ((splitLines eng.sourceText).set j
            (replaceFirst oldText newText ((splitLines eng.sourceText).getD j [])))) ∨
        ((∀ j, n0.startLine ≤ j → j ≤ n0.endLine →
            j < (splitLines eng.sourceText).length →
            containsSub oldText ((splitLines eng.sourceText).getD j []) = false) ∧
          d = eng.sourceText))) ∧
      (an.targetNodes = [] → eng.lines = splitLines eng.sourceText →
        ∀ o, an.occurrences = [o] →
          ∃ x, d = joinLines ((splitLines eng.sourceText).set o.line x)) := by
  obtain ⟨hd, hne⟩ := editWithContext_success_shape eng disk oldText newText ctx
    r d an han h hsucc
  constructor
  · intro n0 rest hnodes
    have happ : (applyEdit eng oldText newText an).2.2
        = replaceInScope eng.sourceText oldText newText n0 := by
      unfold applyEdit
      rw [hnodes]
    have hrs : replaceInScope eng.sourceText oldText newText n0
        = joinLines (replaceInScopeGo oldText newText (splitLines eng.sourceText).length
            n0.startLine n0.endLine (splitLines eng.sourceText)) := rfl
    rw [hd, happ, hrs]
    rcases replaceInScopeGo_spec oldText newText (splitLines eng.sourceText).length
        n0.startLine n0.endLine (splitLines eng.sourceText) (by omega) with
      ⟨j, hj1, hj2, hj3, hj4, hj5, heq⟩ | ⟨hall, heq⟩
    · left
      exact ⟨j, hj1, hj2, hj3, hj4, hj5, by rw [heq]⟩
    · right
      exact ⟨hall, by rw [heq, joinLines_splitLines]⟩
  · intro hnodes hwf o hocc
    exact editWithContext_global_touches eng disk oldText newText ctx r d an o
      hwf han hnodes hocc h hsucc

def nodeC9 : NodeContext :=
  { kind := str "FunctionDeclaration", name := str "foo", startLine := 0,
    endLine := 1, startChar := 0, endChar := 0, text := [],
    scope := ScopeKind.functionScope }

def engC9 : Engine := mkEngine (str "x a\ny a\nz") [nodeC9]

def ctxC9 : EditContext :=
  { withinFunction := some (str "foo"), requireUnique := some false }

def anC9 : Analysis :=
  (analyzeEditContext engC9 (str "a") ctxC9).getD
    { searchText := [], context := {}, occurrences := [], targetNodes := [],
      scope := ScopeKind.globalScope }

def outC9 : EditResult × Str :=
  ((editWithContext engC9 (str "x a\ny a\nz") (str "a") (str "b") ctxC9).map
    (fun t => (t.1, t.2.2))).getD ({ success := false }, [])

theorem C9_witness :
    outC9.2 = joinLines ((splitLines (str "x a\ny a\nz")).set 0
      (replaceFirst (str "a") (str "b") ((splitLines (str "x a\ny a\nz")).getD 0 []))) := by
  have hmain := (C9_touched_lines engC9 (str "x a\ny a\nz") (str "a") (str "b") ctxC9
    outC9.1 outC9.2 anC9 (by decide) (by decide) (by decide)).1 nodeC9 [] (by decide)
  rcases hmain with ⟨j, hj1, hj2, hj3, hj4, hj5, hd⟩ | ⟨hall, _⟩
  · have hj0 : j = 0 := by
      by_contra hne0
      have h0 := hj5 0 (by decide) (by omega)
      exact absurd h0 (by decide)
    rw [hj0] at hd
    exact hd
  · exfalso
    have h0 := hall 0 (by decide) (by decide) (by decide)
    exact absurd h0 (by decide)

end OpenRouterCode
